import Mathlib

set_option maxRecDepth 100000
set_option maxHeartbeats 2000000

/-!
Verification development for the natural-language-to-diagram-edit engine of
the blueprint-edit repository (src/components/ChatInterface.tsx).

The engine performs regex-based text edits on a draw.io XML string.  We give
a shallow embedding: strings are lists of characters, each JavaScript regular
expression used by the source is encoded as a value of a small regex AST, and
a backtracking matcher reproduces the JS semantics needed here (leftmost
match, greedy and lazy quantifiers, alternation tried left to right,
case-insensitive flag, dotall, capture groups, word boundaries).  Every star
in the source patterns is a star of a single character class, so the matcher
is structurally recursive.
-/

namespace BlueprintEdit

abbrev Str := List Char

/-- Characters of a Lean string literal. -/
def S (s : String) : Str := s.data

/-- ASCII lower-casing, as JavaScript toLowerCase acts on ASCII. -/
def lowerChar (c : Char) : Char :=
  if 65 ≤ c.toNat && c.toNat ≤ 90 then Char.ofNat (c.toNat + 32) else c

/-- ASCII upper-casing, as JavaScript toUpperCase acts on ASCII. -/
def upperChar (c : Char) : Char :=
  if 97 ≤ c.toNat && c.toNat ≤ 122 then Char.ofNat (c.toNat - 32) else c

def lowerStr (s : Str) : Str := s.map lowerChar

def upperStr (s : Str) : Str := s.map upperChar

/-- JS regex word character, the class backslash-w. -/
def isWordChar (c : Char) : Bool :=
  (97 ≤ c.toNat && c.toNat ≤ 122) || (65 ≤ c.toNat && c.toNat ≤ 90) ||
  (48 ≤ c.toNat && c.toNat ≤ 57) || c.toNat == 95

/-- JS regex digit character, the class backslash-d. -/
def isDigitChar (c : Char) : Bool := 48 ≤ c.toNat && c.toNat ≤ 57

/-- JS regex whitespace (ASCII part), the class backslash-s. -/
def isSpaceChar (c : Char) : Bool :=
  c == ' ' || c == '\t' || c == '\n' || c == '\r' ||
  c.toNat == 11 || c.toNat == 12

/-- Character comparison, case-insensitive when the flag is set. -/
def charEq (ci : Bool) (a b : Char) : Bool :=
  if ci then lowerChar a == lowerChar b else a == b

/-- Does `pat` occur at the start of `s` (optionally case-insensitive)? -/
def startsWithB (ci : Bool) : Str → Str → Bool
  | [], _ => true
  | _ :: _, [] => false
  | p :: ps, c :: cs => charEq ci p c && startsWithB ci ps cs

/-- Index of the leftmost occurrence of `pat` in `s`. -/
def idxOfSub (ci : Bool) (pat : Str) : Str → Option Nat
  | [] => if startsWithB ci pat [] then some 0 else none
  | c :: rest =>
    if startsWithB ci pat (c :: rest) then some 0
    else (idxOfSub ci pat rest).map (· + 1)

/-- JS String.includes (case-sensitive substring test). -/
def containsSub (pat s : Str) : Bool := (idxOfSub false pat s).isSome

/-- Case-insensitive substring test. -/
def containsCI (pat s : Str) : Bool := (idxOfSub true pat s).isSome

/-- JS String.replace with a plain-string pattern: replaces the first
occurrence only, case-sensitively. -/
def replaceFirstStr (s pat rep : Str) : Str :=
  match idxOfSub false pat s with
  | none => s
  | some j => s.take j ++ rep ++ s.drop (j + pat.length)

/-- Digits to a natural number, as parseInt on a digit string. -/
def digitsToNat (s : Str) : Nat :=
  s.foldl (fun a c => a * 10 + (c.toNat - 48)) 0

/-- Decimal rendering of a natural number. -/
def natStr (n : Nat) : Str := (toString n).data

/-- Split on whitespace runs, as JS split on a whitespace-run regex
(modulo a possible leading empty token, which all users filter out). -/
def splitWsAux : Str → Str → List Str
  | [], acc => if acc.isEmpty then [] else [acc.reverse]
  | c :: rest, acc =>
    if isSpaceChar c then
      if acc.isEmpty then splitWsAux rest [] else acc.reverse :: splitWsAux rest []
    else splitWsAux rest (c :: acc)

def splitWs (s : Str) : List Str := splitWsAux s []

/-! ### Regex AST

Each JS regular expression of the source is encoded as a `Re` value.  All
quantified subpatterns in those expressions are single character classes
(for example a class-star or a dot-star), captured by `starC`; `lits` is a
literal character sequence, `group` a numbered capture group and `wordB` the
JS word-boundary assertion. -/

inductive Re where
  | eps
  | lits (s : Str)
  | cls (f : Char → Bool)
  | seq (a b : Re)
  | alt (a b : Re)
  | starC (lz : Bool) (f : Char → Bool)
  | group (n : Nat) (r : Re)
  | wordB

/-- Captures: group index to captured characters; the most recent binding of
an index wins on lookup. -/
abbrev Caps := List (Nat × Str)

def capGet (caps : Caps) (n : Nat) : Str := (caps.lookup n).getD []

/-- A matcher continuation: previous character (for word boundaries),
remaining input, captures so far. -/
abbrev Cont := Option Char → Str → Caps → Option (Str × Caps)

/-- Match a literal, threading the last consumed input character. -/
def stripLits (ci : Bool) : Str → Option Char → Str → Option (Option Char × Str)
  | [], prev, i => some (prev, i)
  | _ :: _, _, [] => none
  | p :: ps, _, c :: cs => if charEq ci p c then stripLits ci ps (some c) cs else none

/-- Is there a JS word boundary between `prev` and the head of `i`? -/
def atWordBoundary (prev : Option Char) (i : Str) : Bool :=
  (match prev with | none => false | some c => isWordChar c) !=
  (match i with | [] => false | c :: _ => isWordChar c)

/-- Greedy star of a character class in continuation-passing style: consume
as many class characters as possible first, then backtrack. -/
def greedyK (f : Char → Bool) (k : Cont) : Cont
  | prev, [], caps => k prev [] caps
  | prev, c :: rest, caps =>
    if f c then (greedyK f k (some c) rest caps) <|> k prev (c :: rest) caps
    else k prev (c :: rest) caps

/-- Lazy star of a character class: try the continuation first, consuming a
class character only when the continuation fails. -/
def lazyK (f : Char → Bool) (k : Cont) : Cont
  | prev, [], caps => k prev [] caps
  | prev, c :: rest, caps =>
    (k prev (c :: rest) caps) <|> (if f c then lazyK f k (some c) rest caps else none)

/-- The backtracking matcher.  Backtracking preferences follow JS: left
alternative first, greedy stars longest first, lazy stars shortest first. -/
def matchK (ci : Bool) : Re → Option Char → Str → Caps → Cont → Option (Str × Caps)
  | .eps, prev, i, caps, k => k prev i caps
  | .lits s, prev, i, caps, k =>
    match stripLits ci s prev i with
    | some (prev2, rest) => k prev2 rest caps
    | none => none
  | .cls f, _, i, caps, k =>
    match i with
    | [] => none
    | c :: rest => if f c then k (some c) rest caps else none
  | .seq a b, prev, i, caps, k =>
    matchK ci a prev i caps (fun p2 i2 c2 => matchK ci b p2 i2 c2 k)
  | .alt a b, prev, i, caps, k =>
    (matchK ci a prev i caps k) <|> (matchK ci b prev i caps k)
  | .starC lz f, prev, i, caps, k =>
    if lz then lazyK f k prev i caps else greedyK f k prev i caps
  | .group n r, prev, i, caps, k =>
    matchK ci r prev i caps
      (fun p2 i2 c2 => k p2 i2 ((n, i.take (i.length - i2.length)) :: c2))
  | .wordB, prev, i, caps, k =>
    if atWordBoundary prev i then k prev i caps else none

/-- Try to match `re` at the start of `i`; on success return the remaining
input and the captures of the preferred (JS-chosen) match. -/
def runMatch (ci : Bool) (re : Re) (prev : Option Char) (i : Str) :
    Option (Str × Caps) :=
  matchK ci re prev i [] (fun _ i2 c2 => some (i2, c2))

/-- Leftmost match search from absolute position `pos`: returns the start
position, the matched length and the captures. -/
def searchFrom (ci : Bool) (re : Re) : Option Char → Nat → Str → Option (Nat × Nat × Caps)
  | prev, pos, [] =>
    match runMatch ci re prev [] with
    | some (rest, caps) => some (pos, ([] : Str).length - rest.length, caps)
    | none => none
  | prev, pos, c :: cs =>
    match runMatch ci re prev (c :: cs) with
    | some (rest, caps) => some (pos, (c :: cs).length - rest.length, caps)
    | none => searchFrom ci re (some c) (pos + 1) cs

/-- First match in the whole text (JS match without the global flag). -/
def searchTop (ci : Bool) (re : Re) (text : Str) : Option (Nat × Nat × Caps) :=
  searchFrom ci re none 0 text

/-- All leftmost non-overlapping matches (JS global-flag semantics: continue
after each match, bumping by one character on an empty match). -/
def matchAllAux (ci : Bool) (re : Re) : Nat → Option Char → Nat → Str → List (Nat × Nat × Caps)
  | 0, _, _, _ => []
  | fuel + 1, prev, pos, i =>
    match searchFrom ci re prev pos i with
    | none => []
    | some (s, len, caps) =>
      let adv := (s - pos) + max len 1
      let prev2 := match (i.take adv).getLast? with
        | some c => some c
        | none => prev
      (s, len, caps) :: matchAllAux ci re fuel prev2 (pos + adv) (i.drop adv)

def matchAll (ci : Bool) (re : Re) (text : Str) : List (Nat × Nat × Caps) :=
  matchAllAux ci re (text.length + 1) none 0 text

/-- The matched substring of a match triple. -/
def sliceOf (text : Str) (m : Nat × Nat × Caps) : Str :=
  (text.drop m.1).take m.2.1

/-- Replace every match with `rep` applied to its captures (JS replace with a
global regex and a replacement possibly using capture references). -/
def spliceAux (rep : Caps → Str) : Nat → Str → List (Nat × Nat × Caps) → Str
  | _, t, [] => t
  | pos, t, (s, len, caps) :: ms =>
    (t.take (s - pos)) ++ rep caps ++ spliceAux rep (s + len) (t.drop (s - pos + len)) ms

def replaceAllRe (ci : Bool) (re : Re) (text : Str) (rep : Caps → Str) : Str :=
  spliceAux rep 0 text (matchAll ci re text)

/-! ### Encodings of the source regular expressions -/

def litS (s : String) : Re := Re.lits s.data

def seqL : List Re → Re
  | [] => Re.eps
  | [r] => r
  | r :: rs => Re.seq r (seqL rs)

def altL : List Re → Re
  | [] => Re.eps
  | [r] => r
  | r :: rs => Re.alt r (altL rs)

/-- Greedy `?` on a group: try the body first, then the empty alternative. -/
def optG (r : Re) : Re := Re.alt r Re.eps

/-- Greedy star of the complement of one character, as in a bracket
negation-star. -/
def notStar (c : Char) : Re := Re.starC false (fun x => x != c)

/-- Lazy dot-star under the dotall flag. -/
def anyLazy : Re := Re.starC true (fun _ => true)

/-- Greedy plus of whitespace. -/
def wsP : Re := Re.seq (Re.cls isSpaceChar) (Re.starC false isSpaceChar)

/-- Captured greedy plus of word characters, group `n`. -/
def wordP (n : Nat) : Re :=
  Re.group n (Re.seq (Re.cls isWordChar) (Re.starC false isWordChar))

/-- Captured greedy plus of digits, group `n`. -/
def digitsP (n : Nat) : Re :=
  Re.group n (Re.seq (Re.cls isDigitChar) (Re.starC false isDigitChar))

/-- The instruction patterns of category 1, component removal. -/
def removePats : List Re :=
  [ seqL [litS "remove", wsP, optG (Re.seq (litS "the") wsP), wordP 1,
      optG (Re.alt (Re.seq wsP (litS "block")) (Re.seq wsP (litS "component")))],
    seqL [litS "delete", wsP, optG (Re.seq (litS "the") wsP), wordP 1,
      optG (Re.alt (Re.seq wsP (litS "block")) (Re.seq wsP (litS "component")))],
    seqL [litS "take", wsP, litS "out", wsP, optG (Re.seq (litS "the") wsP), wordP 1],
    seqL [litS "eliminate", wsP, optG (Re.seq (litS "the") wsP), wordP 1] ]

/-- The instruction patterns of category 2, renaming and replacement. -/
def changePats : List Re :=
  [ seqL [altL [litS "change", litS "rename", litS "replace", litS "convert",
        litS "switch", litS "update", litS "make", litS "turn"],
      wsP, optG (Re.seq (litS "the") wsP), wordP 1,
      wsP, altL [litS "to", litS "as", litS "into", litS "with", litS "by"],
      wsP, optG (Re.alt (Re.seq (litS "a") wsP) (Re.seq (litS "an") wsP)), wordP 2],
    seqL [wordP 1, wsP, altL [litS "to", litS "as", litS "into", litS "→", litS "->"],
      wsP, wordP 2],
    seqL [litS "replace", wsP, wordP 1, wsP, litS "with", wsP, wordP 2] ]

/-- The instruction patterns of category 3, connection removal. -/
def connPats : List Re :=
  [ seqL [litS "remove", wsP, optG (Re.seq (litS "the") wsP),
      altL [litS "arrow", litS "connection", litS "line", litS "wire"],
      optG (seqL [wsP, litS "between", wsP, wordP 1, wsP, litS "and", wsP, wordP 2])],
    seqL [litS "delete", wsP, optG (Re.seq (litS "the") wsP),
      altL [litS "arrow", litS "connection", litS "line", litS "wire"],
      optG (seqL [wsP, litS "between", wsP, wordP 1, wsP, litS "and", wsP, wordP 2])],
    seqL [litS "disconnect", wsP, wordP 1,
      optG (seqL [wsP, Re.alt (litS "from") (litS "and"), wsP, wordP 2])] ]

/-- The instruction patterns of category 4, component addition. -/
def addPats : List Re :=
  [ seqL [litS "add", wsP, optG (Re.alt (Re.seq (litS "a") wsP) (Re.seq (litS "an") wsP)),
      wordP 1, optG (Re.seq wsP (altL [litS "component", litS "block", litS "unit"]))],
    seqL [litS "insert", wsP, optG (Re.alt (Re.seq (litS "a") wsP) (Re.seq (litS "an") wsP)),
      wordP 1],
    seqL [litS "create", wsP, optG (Re.alt (Re.seq (litS "a") wsP) (Re.seq (litS "an") wsP)),
      wordP 1] ]

/-- The instruction patterns of category 5, property modification. -/
def propPats : List Re :=
  [ seqL [altL [litS "make", litS "set", litS "change"], wsP, wordP 1, wsP,
      altL [litS "size", litS "width", litS "height"], wsP,
      optG (Re.seq (litS "to") wsP), digitsP 2],
    seqL [litS "resize", wsP, wordP 1, wsP, litS "to", wsP, digitsP 2],
    seqL [altL [litS "make", litS "set"], wsP, wordP 1, wsP,
      Re.alt (litS "color") (litS "colour"), wsP,
      optG (Re.seq (litS "to") wsP), wordP 2] ]

/-- Node-element pattern of removeComponent: an mxCell opening tag whose
value attribute contains the component name, through the closing tag. -/
def nodeRe (name : Str) : Re :=
  seqL [litS "<mxCell", notStar '>', litS "value=\"", notStar '"', Re.lits name,
    notStar '"', litS "\"", notStar '>', litS ">", anyLazy, litS "</mxCell>"]

/-- Identifier-extraction pattern of removeComponent. -/
def idValRe (name : Str) : Re :=
  seqL [litS "id=\"", Re.group 1 (notStar '"'), litS "\"", notStar '>',
    litS "value=\"", notStar '"', Re.lits name, notStar '"', litS "\""]

/-- Connection pattern of removeComponent: an mxCell whose source or target
attribute is the removed identifier. -/
def connIdRe (cid : Str) : Re :=
  seqL [litS "<mxCell", notStar '>', Re.alt (litS "source") (litS "target"),
    litS "=\"", Re.lits cid, litS "\"", notStar '>', litS ">", anyLazy, litS "</mxCell>"]

/-- Edge-element pattern shared by both branches of removeConnections. -/
def edgeRe : Re :=
  seqL [litS "<mxCell", notStar '>', litS "edge=\"1\"", notStar '>', litS ">",
    anyLazy, litS "</mxCell>"]

/-- Whole-word pattern of replaceComponent. -/
def wordRe (w : Str) : Re := seqL [Re.wordB, Re.lits w, Re.wordB]

/-- Numeric-identifier pattern of addComponent (no ignore-case flag). -/
def idNumRe : Re := seqL [litS "id=\"", digitsP 1, litS "\""]

/-- Size-rewrite pattern of modifyComponentProperty. -/
def sizeRe (comp : Str) : Re :=
  seqL [Re.group 1 (seqL [litS "<mxCell", notStar '>', litS "value=\"", notStar '"',
      Re.lits comp, notStar '"', litS "\"", notStar '>', litS ">", anyLazy,
      litS "<mxGeometry", notStar '>', litS "width=\""]),
    notStar '"',
    Re.group 2 (seqL [litS "\"", notStar '>', litS "height=\""]),
    notStar '"',
    Re.group 3 (seqL [litS "\"", anyLazy, litS "</mxCell>"])]

/-- Color-rewrite pattern of modifyComponentProperty. -/
def colorRe (comp : Str) : Re :=
  seqL [Re.group 1 (seqL [litS "<mxCell", notStar '>', litS "value=\"", notStar '"',
      Re.lits comp, notStar '"', litS "\"", notStar '>', litS "style=\"",
      notStar '"', litS "fillColor="]),
    notStar ';',
    Re.group 2 (seqL [litS ";", notStar '"', litS "\"", notStar '>', litS ">",
      anyLazy, litS "</mxCell>"])]

/-! ### The transforms -/

structure RemoveResult where
  success : Bool
  xml : Str
  deriving DecidableEq, Repr

structure ReplaceResult where
  success : Bool
  xml : Str
  count : Nat
  deriving DecidableEq, Repr

structure MessageResult where
  success : Bool
  xml : Str
  message : Str
  deriving DecidableEq, Repr

/-- removeComponent: delete every match of the node pattern (each by a
first-occurrence string replace of the matched text), then delete every
match of the connection pattern for the identifier found by the
identifier-extraction pattern on the original text. -/
def removeComponent (xml name : Str) : RemoveResult :=
  let ms := matchAll true (nodeRe name) xml
  if ms.isEmpty then ⟨false, xml⟩
  else
    let x1 := (ms.map (sliceOf xml)).foldl (fun acc t => replaceFirstStr acc t []) xml
    match searchTop true (idValRe name) xml with
    | some (_, _, caps) =>
      ⟨true, replaceAllRe true (connIdRe (capGet caps 1)) x1 (fun _ => [])⟩
    | none => ⟨true, x1⟩

/-- replaceComponent: whole-word case-insensitive global replacement by the
upper-cased target; fails when there is no occurrence. -/
def replaceComponent (xml frm toC : Str) : ReplaceResult :=
  let ms := matchAll true (wordRe frm) xml
  if ms.isEmpty then ⟨false, xml, 0⟩
  else ⟨true, replaceAllRe true (wordRe frm) xml (fun _ => upperStr toC), ms.length⟩

/-- JS truthiness of an optional captured string. -/
def truthy : Option Str → Bool
  | none => false
  | some s => !s.isEmpty

/-- removeConnections: with two truthy names, delete each edge-element match
whose text contains both names (case-sensitive includes); otherwise delete
every edge-element match. -/
def removeConnections (xml : Str) (c1 c2 : Option Str) : MessageResult :=
  if truthy c1 && truthy c2 then
    let a := c1.getD []
    let b := c2.getD []
    let conns := (matchAll true edgeRe xml).map (sliceOf xml)
    let st := conns.foldl
      (fun (st : Str × Nat) conn =>
        if containsSub a conn && containsSub b conn then
          (replaceFirstStr st.1 conn [], st.2 + 1)
        else st)
      (xml, 0)
    ⟨decide (0 < st.2), st.1,
      S "Removed " ++ natStr st.2 ++ S " connection(s) between " ++ upperStr a ++
        S " and " ++ upperStr b⟩
  else
    let arrows := matchAll true edgeRe xml
    if 0 < arrows.length then
      ⟨true, replaceAllRe true edgeRe xml (fun _ => []),
        S "Removed " ++ natStr arrows.length ++ S " arrow(s)/connection(s) from the diagram"⟩
    else ⟨false, xml, S "No connections found to remove"⟩

/-- The numeric identifiers matched by the global id pattern. -/
def idNums (xml : Str) : List Nat :=
  (matchAll false idNumRe xml).map (fun m => digitsToNat (capGet m.2.2 1))

/-- The new identifier as a string: JS Math.max over an empty spread is
minus infinity, and adding 1 keeps it, so interpolation yields the literal
text -Infinity; otherwise the maximum plus one. -/
def newIdStr (xml : Str) : Str :=
  if (idNums xml).isEmpty then S "-Infinity"
  else natStr ((idNums xml).foldl Nat.max 0 + 1)

/-- The synthesized node element of addComponent (exact template text). -/
def newComponentStr (xml name : Str) : Str :=
  S "\n        <mxCell id=\"" ++ newIdStr xml ++ S "\" value=\"" ++ upperStr name ++
  S "\" style=\"rounded=1;whiteSpace=wrap;html=1;fillColor=#dae8fc;strokeColor=#6c8ebf;\" vertex=\"1\" parent=\"1\">\n          <mxGeometry x=\"400\" y=\"200\" width=\"120\" height=\"60\" as=\"geometry\" />\n        </mxCell>"

/-- addComponent: insert the synthesized element before the first closing
root tag by a plain-string replace; reports success unconditionally. -/
def addComponent (xml name : Str) : RemoveResult :=
  ⟨true, replaceFirstStr xml (S "</mxGraphModel>")
      (newComponentStr xml name ++ S "\n  </mxGraphModel>")⟩

/-- The fixed color-name table of modifyComponentProperty. -/
def colorMap : List (Str × Str) :=
  [ (S "red", S "#ff0000"), (S "blue", S "#0000ff"), (S "green", S "#00ff00"),
    (S "yellow", S "#ffff00"), (S "orange", S "#ffa500"), (S "purple", S "#800080"),
    (S "pink", S "#ffc0cb"), (S "gray", S "#808080") ]

/-- Lookup with JS or-else write-through of the raw value.  The source
indexes a plain object literal with bracket access, so the lookup also hits
the properties of the prototype chain.  Exactly two prototype property
names are fixed points of lower-casing and consist of word characters, so
they are reachable from the captured color word: constructor, whose value
is the Object constructor function, and the accessor named two underscores
proto two underscores, whose value is the prototype object.  Both are
truthy, so the or-else keeps them, and the template literal stringifies
them into the attribute (the first in the V8 native-function rendering,
the second as object-Object in brackets).  Every other missing key yields
undefined, which is falsy, so the raw value is written through. -/
def colorCode (value : Str) : Str :=
  match colorMap.lookup (lowerStr value) with
  | some hex => hex
  | none =>
    if lowerStr value = S "constructor" then S "function Object() \x7b [native code] \x7d"
    else if lowerStr value = S "__proto__" then S "[object Object]"
    else value

/-- modifyComponentProperty: branch on keywords of the raw instruction; each
keyword branch reports success unconditionally after a global regex replace
(which leaves the text unchanged when nothing matches). -/
def modifyComponentProperty (xml comp value userInput : Str) : MessageResult :=
  let lowerInput := lowerStr userInput
  if containsSub (S "size") lowerInput || containsSub (S "width") lowerInput ||
      containsSub (S "height") lowerInput then
    ⟨true,
      replaceAllRe true (sizeRe comp) xml
        (fun caps => capGet caps 1 ++ value ++ capGet caps 2 ++ value ++ capGet caps 3),
      S "Changed " ++ upperStr comp ++ S " size to " ++ value ++ S "x" ++ value⟩
  else if containsSub (S "color") lowerInput || containsSub (S "colour") lowerInput then
    ⟨true,
      replaceAllRe true (colorRe comp) xml
        (fun caps => capGet caps 1 ++ colorCode value ++ capGet caps 2),
      S "Changed " ++ upperStr comp ++ S " color to " ++ value⟩
  else ⟨false, xml, S "Property modification failed"⟩

/-- The contextual stop-word list. -/
def stopWords : List Str :=
  [S "the", S "and", S "or", S "to", S "from", S "with", S "by", S "as",
   S "into", S "remove", S "add", S "change", S "make"]

structure ContextResult where
  success : Bool
  xml : Str
  changes : List Str
  deriving DecidableEq, Repr

/-- One candidate word of handleContextualChanges. -/
def contextStep (origXml userInput : Str) (st : Str × List Str) (comp : Str) :
    Str × List Str :=
  if containsSub comp (lowerStr origXml) then
    let st1 :=
      if containsSub (S "bigger") (lowerStr userInput) ||
          containsSub (S "larger") (lowerStr userInput) then
        let r := modifyComponentProperty st.1 comp (S "150") (S "make bigger")
        if r.success then (r.xml, st.2 ++ [S "Made " ++ upperStr comp ++ S " larger"])
        else st
      else st
    if containsSub (S "smaller") (lowerStr userInput) then
      let r := modifyComponentProperty st1.1 comp (S "80") (S "make smaller")
      if r.success then (r.xml, st1.2 ++ [S "Made " ++ upperStr comp ++ S " smaller"])
      else st1
    else st1
  else st

/-- The fold of handleContextualChanges over the candidate words: words of
the lower-cased instruction longer than two characters and not stop words. -/
def contextState (xml userInput : Str) : Str × List Str :=
  ((splitWs (lowerStr userInput)).filter
      (fun w => decide (2 < w.length) && !(stopWords.contains w))).foldl
    (contextStep xml userInput) (xml, [])

/-- handleContextualChanges: scan the instruction words (longer than two
characters, not stop words) that occur in the lower-cased document and apply
the contextual resize for bigger/larger or smaller instructions; success is
a nonempty change list. -/
def handleContextualChanges (xml userInput : Str) : ContextResult :=
  ⟨decide (0 < (contextState xml userInput).2.length),
   (contextState xml userInput).1, (contextState xml userInput).2⟩

/-! ### The mutator dispatch, makeActualXmlChanges -/

structure MutResult where
  xml : Str
  changes : List Str
  deriving DecidableEq, Repr

/-- One intent category as in the source: try its patterns in listed order
against the instruction; on a pattern match run the transform on the
captures; on transform success return; otherwise continue with the next
pattern of the category. -/
def firstHit (input : Str) (act : Caps → Option MutResult) : List Re → Option MutResult
  | [] => none
  | p :: rest =>
    match searchTop true p input with
    | some (_, _, caps) =>
      match act caps with
      | some r => some r
      | none => firstHit input act rest
    | none => firstHit input act rest

/-- Category 1: component removal. -/
def tryRemoveCat (input xml : Str) : Option MutResult :=
  firstHit input
    (fun caps =>
      if (removeComponent xml (capGet caps 1)).success then
        some ⟨(removeComponent xml (capGet caps 1)).xml,
          [S "Removed " ++ upperStr (capGet caps 1) ++ S " component and its connections"]⟩
      else none)
    removePats

/-- Category 2: renaming and replacement. -/
def tryChangeCat (input xml : Str) : Option MutResult :=
  firstHit input
    (fun caps =>
      if (replaceComponent xml (capGet caps 1) (capGet caps 2)).success then
        some ⟨(replaceComponent xml (capGet caps 1) (capGet caps 2)).xml,
          [S "Changed " ++ natStr (replaceComponent xml (capGet caps 1) (capGet caps 2)).count ++
           S " instance(s) of \"" ++ upperStr (capGet caps 1) ++
           S "\" to \"" ++ upperStr (capGet caps 2) ++ S "\""]⟩
      else none)
    changePats

/-- Category 3: connection and arrow removal. -/
def tryConnCat (input xml : Str) : Option MutResult :=
  firstHit input
    (fun caps =>
      if (removeConnections xml (caps.lookup 1) (caps.lookup 2)).success then
        some ⟨(removeConnections xml (caps.lookup 1) (caps.lookup 2)).xml,
          [(removeConnections xml (caps.lookup 1) (caps.lookup 2)).message]⟩
      else none)
    connPats

/-- Category 4: component addition. -/
def tryAddCat (input xml : Str) : Option MutResult :=
  firstHit input
    (fun caps =>
      if (addComponent xml (capGet caps 1)).success then
        some ⟨(addComponent xml (capGet caps 1)).xml,
          [S "Added new " ++ upperStr (capGet caps 1) ++ S " component to the architecture"]⟩
      else none)
    addPats

/-- Category 5: property modification. -/
def tryModifyCat (input xml : Str) : Option MutResult :=
  firstHit input
    (fun caps =>
      if (modifyComponentProperty xml (capGet caps 1) (capGet caps 2) input).success then
        some ⟨(modifyComponentProperty xml (capGet caps 1) (capGet caps 2) input).xml,
          [(modifyComponentProperty xml (capGet caps 1) (capGet caps 2) input).message]⟩
      else none)
    propPats

/-- Category 6: contextual changes. -/
def tryContextCat (input xml : Str) : Option MutResult :=
  if (handleContextualChanges xml input).success then
    some ⟨(handleContextualChanges xml input).xml, (handleContextualChanges xml input).changes⟩
  else none

/-- The mutator: the source's sequence of category blocks, each returning as
soon as a transform reports success, with the unchanged document and an
empty change list when every category falls through. -/
def makeActualXmlChanges (input xml : Str) : MutResult :=
  match tryRemoveCat input xml with
  | some r => r
  | none =>
    match tryChangeCat input xml with
    | some r => r
    | none =>
      match tryConnCat input xml with
      | some r => r
      | none =>
        match tryAddCat input xml with
        | some r => r
        | none =>
          match tryModifyCat input xml with
          | some r => r
          | none =>
            match tryContextCat input xml with
            | some r => r
            | none => ⟨xml, []⟩

/-- Specification-side dispatch: an ordered list of intent categories, the
first category that reports success wins, with a fall-back to the unchanged
document. -/
def applyFirstCat (cats : List (Str → Str → Option MutResult)) (input xml : Str) :
    MutResult :=
  match cats with
  | [] => ⟨xml, []⟩
  | c :: rest =>
    match c input xml with
    | some r => r
    | none => applyFirstCat rest input xml

/-- The fixed intent priority order of the specification. -/
def intentOrder : List (Str → Str → Option MutResult) :=
  [tryRemoveCat, tryChangeCat, tryConnCat, tryAddCat, tryModifyCat, tryContextCat]

/-! ### Specification-side notion of a whole-word occurrence -/

/-- Does `frm` occur at position `k` of `text` as a case-insensitive whole
word: the characters at `k` equal `frm` up to case and a JS word boundary
precedes and follows the occurrence. -/
def wwAt (frm text : Str) (k : Nat) : Bool :=
  atWordBoundary (text.take k).getLast? (text.drop k) &&
  startsWithB true frm (text.drop k) &&
  atWordBoundary (text.take (k + frm.length)).getLast? (text.drop (k + frm.length))

/-- All whole-word occurrence positions from `k` on, scanned one position at
a time. -/
def allWWFromAux (frm text : Str) : Nat → Nat → List Nat
  | 0, _ => []
  | fuel + 1, k =>
    if wwAt frm text k then k :: allWWFromAux frm text fuel (k + 1)
    else allWWFromAux frm text fuel (k + 1)

/-- Every position of `text` at which `frm` occurs as a case-insensitive
whole word. -/
def wwList (frm text : Str) : List Nat := allWWFromAux frm text (text.length + 1) 0

/-! ### Demonstration documents -/

/-- A document with an upper-case GPU node, a lower-case gpu node and one
edge referencing the first node. -/
def tinyDoc : Str :=
  S "<mxGraphModel><root><mxCell id=\"2\" value=\"GPU\" vertex=\"1\">a</mxCell><mxCell id=\"3\" value=\"gpu\" vertex=\"1\">b</mxCell><mxCell id=\"4\" edge=\"1\" source=\"2\" target=\"3\">c</mxCell></root></mxGraphModel>"

/-- A document whose numeric identifiers are 2 and 7. -/
def docIds : Str :=
  S "<mxGraphModel><root><mxCell id=\"2\" value=\"A\" vertex=\"1\">x</mxCell><mxCell id=\"7\" value=\"B\" vertex=\"1\">y</mxCell></root></mxGraphModel>"

/-- A document with a closing root tag but no numeric identifier. -/
def docNoIds : Str := S "<mxGraphModel><root><mxCell id=\"abc\" /></root></mxGraphModel>"

/-- A document on which deleting the one edge-element match splices the
surrounding text into new edge-element markup. -/
def spliceDoc : Str := S "<mx<mxCell edge=\"1\">x</mxCell>Cell edge=\"1\" f>g</mxCell>"

/-- A self-closing edge element followed by an open-close edge element. -/
def scDoc : Str :=
  S "<mxCell edge=\"1\" source=\"2\" target=\"3\" /> <mxCell edge=\"1\" parent=\"1\">q</mxCell>"

/-- A single node with a fillColor style entry. -/
def colorDoc : Str :=
  S "<mxGraphModel><root><mxCell id=\"2\" value=\"GPU\" style=\"rounded=1;fillColor=#dae8fc;strokeColor=#6c8ebf;\" vertex=\"1\"><mxGeometry x=\"40\" y=\"40\" width=\"120\" height=\"60\" as=\"geometry\" /></mxCell></root></mxGraphModel>"

/-- The text of `colorDoc` up to and including its fillColor key. -/
def colorDocPre : Str :=
  S "<mxGraphModel><root><mxCell id=\"2\" value=\"GPU\" style=\"rounded=1;fillColor="

/-- The text of `colorDoc` from the semicolon after the fill color on. -/
def colorDocSuf : Str :=
  S ";strokeColor=#6c8ebf;\" vertex=\"1\"><mxGeometry x=\"40\" y=\"40\" width=\"120\" height=\"60\" as=\"geometry\" /></mxCell></root></mxGraphModel>"

/-- First capture group of the color pattern on `colorDoc`. -/
def capC1 : Str := S "<mxCell id=\"2\" value=\"GPU\" style=\"rounded=1;fillColor="

/-- Second capture group of the color pattern on `colorDoc`. -/
def capC2 : Str :=
  S ";strokeColor=#6c8ebf;\" vertex=\"1\"><mxGeometry x=\"40\" y=\"40\" width=\"120\" height=\"60\" as=\"geometry\" /></mxCell>"

/-! ### Helper lemmas about the category dispatch -/

theorem firstHit_changes_ne_nil (input : Str) (act : Caps → Option MutResult)
    (hact : ∀ caps r, act caps = some r → r.changes ≠ []) :
    ∀ pats r, firstHit input act pats = some r → r.changes ≠ [] := by
  intro pats
  induction pats with
  | nil => intro r h; simp [firstHit] at h
  | cons p rest ih =>
    intro r h
    unfold firstHit at h
    cases hs : searchTop true p input with
    | none => rw [hs] at h; exact ih r h
    | some m =>
      obtain ⟨a, b, caps⟩ := m
      rw [hs] at h
      dsimp only at h
      cases ha : act caps with
      | none => rw [ha] at h; exact ih r h
      | some r2 =>
        rw [ha] at h
        injection h with h2
        subst h2
        exact hact _ _ ha

theorem ifActChanges {c : Bool} {x : Str} {msg : Str} {r : MutResult}
    (h : (if c then some (⟨x, [msg]⟩ : MutResult) else none) = some r) :
    r.changes ≠ [] := by
  split at h
  · injection h with h2; subst h2; simp
  · cases h

theorem tryRemoveCat_changes (input xml : Str) (r : MutResult) :
    tryRemoveCat input xml = some r → r.changes ≠ [] := by
  intro h
  exact firstHit_changes_ne_nil input _ (fun caps r2 h2 => ifActChanges h2) _ r h

theorem tryChangeCat_changes (input xml : Str) (r : MutResult) :
    tryChangeCat input xml = some r → r.changes ≠ [] := by
  intro h
  exact firstHit_changes_ne_nil input _ (fun caps r2 h2 => ifActChanges h2) _ r h

theorem tryConnCat_changes (input xml : Str) (r : MutResult) :
    tryConnCat input xml = some r → r.changes ≠ [] := by
  intro h
  exact firstHit_changes_ne_nil input _ (fun caps r2 h2 => ifActChanges h2) _ r h

theorem tryAddCat_changes (input xml : Str) (r : MutResult) :
    tryAddCat input xml = some r → r.changes ≠ [] := by
  intro h
  exact firstHit_changes_ne_nil input _ (fun caps r2 h2 => ifActChanges h2) _ r h

theorem tryModifyCat_changes (input xml : Str) (r : MutResult) :
    tryModifyCat input xml = some r → r.changes ≠ [] := by
  intro h
  exact firstHit_changes_ne_nil input _ (fun caps r2 h2 => ifActChanges h2) _ r h

theorem tryContextCat_changes (input xml : Str) (r : MutResult) :
    tryContextCat input xml = some r → r.changes ≠ [] := by
  intro h
  unfold tryContextCat at h
  split at h
  case isTrue hc =>
    injection h with h2
    subst h2
    have hc2 : (handleContextualChanges xml input).success = true := hc
    unfold handleContextualChanges at hc2
    simp only [decide_eq_true_eq] at hc2
    show (handleContextualChanges xml input).changes ≠ []
    unfold handleContextualChanges
    exact List.ne_nil_of_length_pos hc2
  case isFalse => cases h

/-! ### Claim C1: fixed intent priority order, at most one applied transform -/

/-- Claim C1: for every instruction and document the mutator result equals a
first-success dispatch over the intent categories in the fixed order Remove,
Replace/Rename, DisconnectEdges, Add, ModifyProperty, ContextualBulkResize;
in that dispatch a category that reports success determines the result with
no later category attempted (its result stands whatever follows in the
list), a category that fails is skipped, and an empty category list returns
the document unchanged with no change records. -/
theorem c1_intent_priority_order :
    (∀ input xml, makeActualXmlChanges input xml = applyFirstCat intentOrder input xml) ∧
    (∀ (c : Str → Str → Option MutResult) (cats : List (Str → Str → Option MutResult))
       (input xml : Str) (r : MutResult),
      c input xml = some r → applyFirstCat (c :: cats) input xml = r) ∧
    (∀ (c : Str → Str → Option MutResult) (cats : List (Str → Str → Option MutResult))
       (input xml : Str),
      c input xml = none → applyFirstCat (c :: cats) input xml = applyFirstCat cats input xml) ∧
    (∀ input xml, applyFirstCat [] input xml = ⟨xml, []⟩) := by
  refine ⟨fun input xml => ?_, fun c cats input xml r h => ?_,
    fun c cats input xml h => ?_, fun input xml => rfl⟩
  · unfold makeActualXmlChanges applyFirstCat intentOrder
    rfl
  · show (match c input xml with
          | some r => r
          | none => applyFirstCat cats input xml) = r
    rw [h]
  · show (match c input xml with
          | some r => r
          | none => applyFirstCat cats input xml) = applyFirstCat cats input xml
    rw [h]

/-- Witness for C1 at a concrete successful first category. -/
theorem c1_witness :
    applyFirstCat (tryRemoveCat :: [tryChangeCat]) (S "remove GPU block") tinyDoc
      = ⟨S "<mxGraphModel><root></root></mxGraphModel>",
         [S "Removed GPU component and its connections"]⟩ :=
  c1_intent_priority_order.2.1 tryRemoveCat [tryChangeCat] (S "remove GPU block") tinyDoc
    _ (by decide)

/-! ### Claim C2 counterexample: removal matching is case-insensitive -/

/-- Claim C2 is false on the code: on `tinyDoc`, whose first node label
contains GPU as a case-sensitive substring, Remove GPU also deletes the node
whose label contains GPU only under a case-insensitive comparison (the
value gpu node is gone from the result), because the removal pattern is
compiled with the ignore-case flag. -/
theorem c2_counterexample :
    (removeComponent tinyDoc (S "GPU")).success = true ∧
    containsSub (S "value=\"GPU\"") tinyDoc = true ∧
    containsSub (S "value=\"gpu\"") tinyDoc = true ∧
    containsSub (S "value=\"gpu\"") (removeComponent tinyDoc (S "GPU")).xml = false ∧
    (removeComponent tinyDoc (S "GPU")).xml = S "<mxGraphModel><root></root></mxGraphModel>" := by
  decide

/-! ### Claim C3 counterexample: replacement can reintroduce the source word -/

/-- Claim C3 is false on the code: in the document GPU the word GPU occurs
exactly once as a case-insensitive whole word, and Replace GPU GPU succeeds
with count 1, but the resulting document still contains a case-insensitive
whole-word occurrence of GPU, not zero. -/
theorem c3_counterexample :
    wwList (S "GPU") (S "GPU") = [0] ∧
    replaceComponent (S "GPU") (S "GPU") (S "GPU") = ⟨true, S "GPU", 1⟩ ∧
    wwList (S "GPU") (replaceComponent (S "GPU") (S "GPU") (S "GPU")).xml = [0] := by
  decide

/-! ### Claim C4 counterexample: ModifyProperty succeeds with no matching node -/

/-- Claim C4 is false on the code: on a document in which the component
pattern matches no node style block, the size branch still reports success
(and the document comes back unchanged), instead of failing and letting the
mutator fall through. -/
theorem c4_counterexample :
    matchAll true (sizeRe (S "GPU")) (S "nothing here") = [] ∧
    modifyComponentProperty (S "nothing here") (S "GPU") (S "150") (S "make GPU size to 150")
      = ⟨true, S "nothing here", S "Changed GPU size to 150x150"⟩ := by
  decide

/-! ### Claim C5 counterexample: no numeric id yields -Infinity, not 1 -/

/-- Claim C5 is false on the code: on a document with a closing root tag and
no numeric identifier, the inserted node receives the literal identifier
-Infinity (JS Math.max over an empty spread), not 1. -/
theorem c5_counterexample :
    containsSub (S "</mxGraphModel>") docNoIds = true ∧
    idNums docNoIds = [] ∧
    containsSub (S "id=\"-Infinity\"") (addComponent docNoIds (S "ram")).xml = true ∧
    containsSub (S "id=\"1\"") (addComponent docNoIds (S "ram")).xml = false := by
  decide

/-! ### Claim C5 amended: addComponent behavior -/

/-- The document produced by adding a ram component to `docIds`. -/
def docIdsAfter : Str :=
  S "<mxGraphModel><root><mxCell id=\"2\" value=\"A\" vertex=\"1\">x</mxCell><mxCell id=\"7\" value=\"B\" vertex=\"1\">y</mxCell></root>\n        <mxCell id=\"8\" value=\"RAM\" style=\"rounded=1;whiteSpace=wrap;html=1;fillColor=#dae8fc;strokeColor=#6c8ebf;\" vertex=\"1\" parent=\"1\">\n          <mxGeometry x=\"400\" y=\"200\" width=\"120\" height=\"60\" as=\"geometry\" />\n        </mxCell>\n  </mxGraphModel>"

/-- The document produced by adding a ram component to `docNoIds`. -/
def docNoIdsAfter : Str :=
  S "<mxGraphModel><root><mxCell id=\"abc\" /></root>\n        <mxCell id=\"-Infinity\" value=\"RAM\" style=\"rounded=1;whiteSpace=wrap;html=1;fillColor=#dae8fc;strokeColor=#6c8ebf;\" vertex=\"1\" parent=\"1\">\n          <mxGeometry x=\"400\" y=\"200\" width=\"120\" height=\"60\" as=\"geometry\" />\n        </mxCell>\n  </mxGraphModel>"

/-- Claim C5 amended: Add always reports success; when the document has at
least one numeric identifier the new node receives max plus one (on the
canonical document the identifiers go from 2,7 to 2,7,8, so the maximum
numeric identifier increases by exactly 1, and the node, with upper-cased
label, fixed position 400,200 and fixed size 120x60, is inserted immediately
before the first closing root tag); a document with no numeric identifier
receives the literal identifier -Infinity instead of 1. -/
theorem c5_add_component :
    (∀ xml name, (addComponent xml name).success = true) ∧
    idNums docIds = [2, 7] ∧
    (addComponent docIds (S "ram")).xml = docIdsAfter ∧
    idNums docIdsAfter = [2, 7, 8] ∧
    (addComponent docNoIds (S "ram")).xml = docNoIdsAfter ∧
    containsSub (S "id=\"-Infinity\"") docNoIdsAfter = true := by
  refine ⟨fun xml name => rfl, ?_, ?_, ?_, ?_, ?_⟩ <;> decide

/-! ### Claim C9: the fixed color table and the prototype-chain exception -/

/-- Claim C9 is false on the code: the color lookup is bracket access on an
object literal, so a word outside the fixed color set is not always written
through verbatim as the literal attribute value: the word constructor,
which the color instruction pattern captures and lower-casing leaves
unchanged, misses the eight own keys but hits the inherited constructor
property of the prototype chain, whose truthy value survives the or-else,
and the stringified Object constructor is written into the fillColor
attribute instead of the word itself. -/
theorem c9_counterexample :
    colorMap.lookup (lowerStr (S "constructor")) = none ∧
    colorCode (S "constructor") ≠ S "constructor" ∧
    (modifyComponentProperty colorDoc (S "GPU") (S "constructor")
        (S "make GPU color to constructor")).xml
      = colorDocPre ++ S "function Object() \x7b [native code] \x7d" ++ colorDocSuf ∧
    containsSub (S "fillColor=constructor;")
      (modifyComponentProperty colorDoc (S "GPU") (S "constructor")
        (S "make GPU color to constructor")).xml = false := by
  decide

/-- Claim C9 amended: a ModifyProperty color invocation rewrites the
matched node's fillColor attribute value to colorCode of the given word;
colorCode maps the eight fixed color names (compared case-insensitively) to
their fixed hex codes, and writes any other word through verbatim unless
its lower-casing is one of the two prototype-chain property names that
survive lower-casing, constructor and the double-underscore proto accessor,
whose inherited values are truthy and are stringified into the attribute
instead; on `colorDoc` the document becomes prefix, color code, suffix for
every value. -/
theorem c9_color_mapping :
    (∀ value : Str,
      (modifyComponentProperty colorDoc (S "GPU") value (S "change GPU color to red")).xml
        = colorDocPre ++ colorCode value ++ colorDocSuf ∧
      (modifyComponentProperty colorDoc (S "GPU") value (S "change GPU color to red")).success
        = true) ∧
    (∀ value : Str, colorMap.lookup (lowerStr value) = none →
      lowerStr value ≠ S "constructor" → lowerStr value ≠ S "__proto__" →
      colorCode value = value) ∧
    colorCode (S "red") = S "#ff0000" ∧ colorCode (S "BLUE") = S "#0000ff" ∧
    colorCode (S "green") = S "#00ff00" ∧ colorCode (S "yellow") = S "#ffff00" ∧
    colorCode (S "orange") = S "#ffa500" ∧ colorCode (S "purple") = S "#800080" ∧
    colorCode (S "pink") = S "#ffc0cb" ∧ colorCode (S "Gray") = S "#808080" ∧
    colorCode (S "teal") = S "teal" ∧
    colorCode (S "constructor") = S "function Object() \x7b [native code] \x7d" ∧
    colorCode (S "Constructor") = S "function Object() \x7b [native code] \x7d" ∧
    colorCode (S "__proto__") = S "[object Object]" := by
  refine ⟨?_, ?_, by decide, by decide, by decide, by decide, by decide, by decide,
    by decide, by decide, by decide, by decide, by decide, by decide⟩
  case refine_2 =>
    intro value h1 h2 h3
    show (match colorMap.lookup (lowerStr value) with
          | some hex => hex
          | none =>
            if lowerStr value = S "constructor" then
              S "function Object() \x7b [native code] \x7d"
            else if lowerStr value = S "__proto__" then S "[object Object]"
            else value) = value
    rw [h1, if_neg h2, if_neg h3]
  intro value
  have hmod : modifyComponentProperty colorDoc (S "GPU") value (S "change GPU color to red") =
      ⟨true,
        replaceAllRe true (colorRe (S "GPU")) colorDoc
          (fun caps => capGet caps 1 ++ colorCode value ++ capGet caps 2),
        S "Changed " ++ upperStr (S "GPU") ++ S " color to " ++ value⟩ := rfl
  have hm : matchAll true (colorRe (S "GPU")) colorDoc = [(20, 170, [(2, capC2), (1, capC1)])] := by
    decide
  constructor
  · rw [hmod]
    show replaceAllRe true (colorRe (S "GPU")) colorDoc
      (fun caps => capGet caps 1 ++ colorCode value ++ capGet caps 2) = _
    unfold replaceAllRe
    rw [hm]
    show colorDoc.take 20 ++ (capC1 ++ (colorCode value ++ capC2)) ++ colorDoc.drop 190
      = colorDocPre ++ colorCode value ++ colorDocSuf
    simp only [List.append_assoc]
    rfl
  · rw [hmod]

/-- Witness for C9: the word teal misses the color table and is neither of
the two prototype-chain names, so it is written through verbatim. -/
theorem c9_witness : colorCode (S "teal") = S "teal" :=
  c9_color_mapping.2.1 (S "teal") (by decide) (by decide) (by decide)

/-! ### Claim C6 counterexample: failed insertion still reports a change -/

/-- Claim C6 is false on the code: on a document with no closing root tag,
the instruction add a RAM component leaves the document unchanged but the
change list is not empty, because addComponent reports success
unconditionally. -/
theorem c6_counterexample :
    containsSub (S "</mxGraphModel>") (S "x") = false ∧
    makeActualXmlChanges (S "add a RAM component") (S "x")
      = ⟨S "x", [S "Added new RAM component to the architecture"]⟩ := by
  decide

/-! ### Claim C6 amended: a failed insertion still reports one change -/

/-- Claim C6 amended: on every document with no closing root tag, the
instruction add a RAM component leaves the document text unchanged but the
change list holds exactly one record, because addComponent reports success
even when the textual insertion fails to attach. -/
theorem c6_add_reports_change (xml : Str)
    (h : containsSub (S "</mxGraphModel>") xml = false) :
    makeActualXmlChanges (S "add a RAM component") xml
      = ⟨xml, [S "Added new RAM component to the architecture"]⟩ := by
  have hnone : idxOfSub false (S "</mxGraphModel>") xml = none := by
    cases ho : idxOfSub false (S "</mxGraphModel>") xml with
    | none => rfl
    | some j => unfold containsSub at h; rw [ho] at h; simp at h
  have hstep : makeActualXmlChanges (S "add a RAM component") xml
      = ⟨(addComponent xml (S "RAM")).xml,
         [S "Added new RAM component to the architecture"]⟩ := rfl
  rw [hstep]
  have hx : (addComponent xml (S "RAM")).xml = xml := by
    show replaceFirstStr xml (S "</mxGraphModel>") _ = xml
    unfold replaceFirstStr
    rw [hnone]
  rw [hx]

/-- Witness for C6 amended at a concrete document. -/
theorem c6_witness :
    makeActualXmlChanges (S "add a RAM component") (S "zz")
      = ⟨S "zz", [S "Added new RAM component to the architecture"]⟩ :=
  c6_add_reports_change (S "zz") (by decide)

/-! ### Claim C8 amended: the arrow wipe deletes every edge-element match -/

theorem removeConnections_no_match (xml : Str) (c1 c2 : Option Str)
    (hc : (truthy c1 && truthy c2) = false) (h : matchAll true edgeRe xml = []) :
    removeConnections xml c1 c2 = ⟨false, xml, S "No connections found to remove"⟩ := by
  unfold removeConnections
  rw [if_neg (by simp [hc])]
  rw [h]
  simp

/-- Claim C8 amended: with one or zero truthy component names,
DisconnectEdges deletes every leftmost non-overlapping edge-element match of
the document and reports the count removed, failing with the document
unchanged when there is no match; a second no-argument call reports zero
removed whenever the first call's output has no edge-element match (on
adversarial documents the deletion can splice new edge markup together, so
this is conditional, as the counterexample shows). -/
theorem c8_disconnect_edges (xml : Str) (c1 c2 : Option Str)
    (hc : (truthy c1 && truthy c2) = false) :
    (matchAll true edgeRe xml = [] →
      removeConnections xml c1 c2 = ⟨false, xml, S "No connections found to remove"⟩) ∧
    (matchAll true edgeRe xml ≠ [] →
      (removeConnections xml c1 c2).success = true ∧
      (removeConnections xml c1 c2).xml = replaceAllRe true edgeRe xml (fun _ => []) ∧
      (removeConnections xml c1 c2).message =
        S "Removed " ++ natStr (matchAll true edgeRe xml).length ++
        S " arrow(s)/connection(s) from the diagram") ∧
    (matchAll true edgeRe (removeConnections xml c1 c2).xml = [] →
      removeConnections (removeConnections xml c1 c2).xml none none
        = ⟨false, (removeConnections xml c1 c2).xml, S "No connections found to remove"⟩) := by
  refine ⟨removeConnections_no_match xml c1 c2 hc, ?_, ?_⟩
  · intro h
    have hpos : 0 < (matchAll true edgeRe xml).length := List.length_pos.mpr h
    unfold removeConnections
    rw [if_neg (by simp [hc]), if_pos hpos]
    exact ⟨rfl, rfl, rfl⟩
  · intro h
    exact removeConnections_no_match _ none none (by decide) h

/-- Witness for C8 amended on the document `tinyDoc` with one edge. -/
theorem c8_witness :
    (removeConnections tinyDoc none none).success = true ∧
    removeConnections (removeConnections tinyDoc none none).xml none none
      = ⟨false, (removeConnections tinyDoc none none).xml,
          S "No connections found to remove"⟩ :=
  ⟨((c8_disconnect_edges tinyDoc none none (by decide)).2.1 (by decide)).1,
   (c8_disconnect_edges tinyDoc none none (by decide)).2.2 (by decide)⟩

/-! ### Claim C8 counterexample: the global arrow wipe is not idempotent -/

/-- Claim C8 is false on the code: on `spliceDoc` the first no-argument
DisconnectEdges deletes its one edge-element match, but the deletion splices
the surrounding text into new edge-element markup, so the second call
reports one removal and succeeds instead of reporting zero. -/
theorem c8_counterexample :
    (removeConnections spliceDoc none none).success = true ∧
    (removeConnections spliceDoc none none).xml = S "<mxCell edge=\"1\" f>g</mxCell>" ∧
    (removeConnections (removeConnections spliceDoc none none).xml none none).success = true ∧
    (removeConnections (removeConnections spliceDoc none none).xml none none).xml = [] := by
  decide

/-! ### Claim C7: an empty change list means an unchanged document -/

/-- Claim C7: whenever the mutator returns an empty change list, the
returned document text equals the input document text character for
character; the mutator never returns a partially modified document together
with an empty change list. -/
theorem c7_empty_changes_unchanged (input xml : Str) :
    (makeActualXmlChanges input xml).changes = [] →
    (makeActualXmlChanges input xml).xml = xml := by
  intro h
  unfold makeActualXmlChanges at h ⊢
  cases h1 : tryRemoveCat input xml with
  | some r => rw [h1] at h; exact absurd h (tryRemoveCat_changes input xml r h1)
  | none =>
  rw [h1] at h
  cases h2 : tryChangeCat input xml with
  | some r => rw [h2] at h; exact absurd h (tryChangeCat_changes input xml r h2)
  | none =>
  rw [h2] at h
  cases h3 : tryConnCat input xml with
  | some r => rw [h3] at h; exact absurd h (tryConnCat_changes input xml r h3)
  | none =>
  rw [h3] at h
  cases h4 : tryAddCat input xml with
  | some r => rw [h4] at h; exact absurd h (tryAddCat_changes input xml r h4)
  | none =>
  rw [h4] at h
  cases h5 : tryModifyCat input xml with
  | some r => rw [h5] at h; exact absurd h (tryModifyCat_changes input xml r h5)
  | none =>
  rw [h5] at h
  cases h6 : tryContextCat input xml with
  | some r => rw [h6] at h; exact absurd h (tryContextCat_changes input xml r h6)
  | none => rfl

/-- Witness for C7 at a concrete unrecognized instruction. -/
theorem c7_witness :
    (makeActualXmlChanges (S "hello") (S "x")).changes = [] ∧
    (makeActualXmlChanges (S "hello") (S "x")).xml = S "x" :=
  ⟨by decide, c7_empty_changes_unchanged (S "hello") (S "x") (by decide)⟩

/-! ### Claim C4 amended: ModifyProperty succeeds exactly on a keyword -/

/-- Claim C4 amended: the ModifyProperty transform reports success exactly
when the raw instruction contains one of the keywords size, width, height,
color, colour, regardless of whether the component pattern matches any node
style block; when neither the size pattern nor the color pattern matches
anything, the document is returned unchanged even though success is
reported. -/
theorem c4_modify_success_iff_keyword (xml comp value input : Str) :
    ((modifyComponentProperty xml comp value input).success =
      ((containsSub (S "size") (lowerStr input) || containsSub (S "width") (lowerStr input) ||
        containsSub (S "height") (lowerStr input)) ||
       (containsSub (S "color") (lowerStr input) || containsSub (S "colour") (lowerStr input)))) ∧
    (matchAll true (sizeRe comp) xml = [] → matchAll true (colorRe comp) xml = [] →
      (modifyComponentProperty xml comp value input).xml = xml) := by
  constructor
  · unfold modifyComponentProperty
    dsimp only
    split
    next hc => simp [hc]
    next hc =>
      split
      next hc2 => simp [hc, hc2]
      next hc2 => simp [hc, hc2]
  · intro h1 h2
    unfold modifyComponentProperty
    dsimp only
    split
    next hc => show replaceAllRe true (sizeRe comp) xml _ = xml
               unfold replaceAllRe
               rw [h1]
               rfl
    next hc =>
      split
      next hc2 => show replaceAllRe true (colorRe comp) xml _ = xml
                  unfold replaceAllRe
                  rw [h2]
                  rfl
      next hc2 => rfl

/-- Witness for C4 amended on a concrete document with no matching node. -/
theorem c4_witness :
    (modifyComponentProperty (S "zz") (S "GPU") (S "5") (S "resize GPU to 5")).xml = S "zz" :=
  (c4_modify_success_iff_keyword (S "zz") (S "GPU") (S "5") (S "resize GPU to 5")).2
    (by decide) (by decide)

/-! ### Matcher soundness: matches end inside the input, and a match of a
pattern that ends with a literal forces that literal to occur in the input -/

theorem orElse_eq_some_cases {α : Type} {a b : Option α} {r : α}
    (h : (a <|> b) = some r) : a = some r ∨ (a = none ∧ b = some r) := by
  cases a with
  | none => right; simpa using h
  | some x => left; simpa using h

theorem stripLits_suffix (ci : Bool) :
    ∀ (s : Str) (prev : Option Char) (i : Str) (p2 : Option Char) (rest : Str),
      stripLits ci s prev i = some (p2, rest) → rest.IsSuffix i := by
  intro s
  induction s with
  | nil => intro prev i p2 rest h
           unfold stripLits at h
           injection h with h2
           rw [(Prod.mk.injEq _ _ _ _).mp h2 |>.2]
  | cons p ps ih =>
    intro prev i p2 rest h
    cases i with
    | nil => exact absurd h (by simp [stripLits])
    | cons c cs =>
      unfold stripLits at h
      split at h
      · exact (ih (some c) cs p2 rest h).trans (List.suffix_cons c cs)
      · cases h

theorem greedyK_some_suffix (f : Char → Bool) (k : Cont) :
    ∀ (i : Str) (prev : Option Char) (caps : Caps) (r : Str × Caps),
      greedyK f k prev i caps = some r →
      ∃ p2 i2 caps2, i2.IsSuffix i ∧ k p2 i2 caps2 = some r := by
  intro i
  induction i with
  | nil => intro prev caps r h; exact ⟨prev, [], caps, List.suffix_refl [], h⟩
  | cons c cs ih =>
    intro prev caps r h
    unfold greedyK at h
    split at h
    · rcases orElse_eq_some_cases h with h1 | ⟨_, h2⟩
      · obtain ⟨p2, i2, caps2, hs, hk⟩ := ih (some c) caps r h1
        exact ⟨p2, i2, caps2, hs.trans (List.suffix_cons c cs), hk⟩
      · exact ⟨prev, c :: cs, caps, List.suffix_refl _, h2⟩
    · exact ⟨prev, c :: cs, caps, List.suffix_refl _, h⟩

theorem lazyK_some_suffix (f : Char → Bool) (k : Cont) :
    ∀ (i : Str) (prev : Option Char) (caps : Caps) (r : Str × Caps),
      lazyK f k prev i caps = some r →
      ∃ p2 i2 caps2, i2.IsSuffix i ∧ k p2 i2 caps2 = some r := by
  intro i
  induction i with
  | nil => intro prev caps r h; exact ⟨prev, [], caps, List.suffix_refl [], h⟩
  | cons c cs ih =>
    intro prev caps r h
    unfold lazyK at h
    rcases orElse_eq_some_cases h with h1 | ⟨_, h2⟩
    · exact ⟨prev, c :: cs, caps, List.suffix_refl _, h1⟩
    · split at h2
      · obtain ⟨p2, i2, caps2, hs, hk⟩ := ih (some c) caps r h2
        exact ⟨p2, i2, caps2, hs.trans (List.suffix_cons c cs), hk⟩
      · cases h2

theorem matchK_some_suffix (ci : Bool) :
    ∀ (re : Re) (prev : Option Char) (i : Str) (caps : Caps) (k : Cont) (r : Str × Caps),
      matchK ci re prev i caps k = some r →
      ∃ p2 i2 caps2, i2.IsSuffix i ∧ k p2 i2 caps2 = some r := by
  intro re
  induction re with
  | eps => intro prev i caps k r h; exact ⟨prev, i, caps, List.suffix_refl i, h⟩
  | lits s =>
    intro prev i caps k r h
    unfold matchK at h
    cases hs : stripLits ci s prev i with
    | none => rw [hs] at h; cases h
    | some pr =>
      obtain ⟨p2, rest⟩ := pr
      rw [hs] at h
      exact ⟨p2, rest, caps, stripLits_suffix ci s prev i p2 rest hs, h⟩
  | cls f =>
    intro prev i caps k r h
    cases i with
    | nil => exact absurd h (by simp [matchK])
    | cons c cs =>
      have h2 : (if f c = true then k (some c) cs caps else none) = some r := h
      cases hf : f c with
      | true =>
        rw [if_pos hf] at h2
        exact ⟨some c, cs, caps, List.suffix_cons c cs, h2⟩
      | false =>
        rw [if_neg (by simp [hf])] at h2
        cases h2
  | seq a b iha ihb =>
    intro prev i caps k r h
    unfold matchK at h
    obtain ⟨p2, i2, caps2, hs2, hk2⟩ := iha prev i caps _ r h
    obtain ⟨p3, i3, caps3, hs3, hk3⟩ := ihb p2 i2 caps2 k r hk2
    exact ⟨p3, i3, caps3, hs3.trans hs2, hk3⟩
  | alt a b iha ihb =>
    intro prev i caps k r h
    unfold matchK at h
    rcases orElse_eq_some_cases h with h1 | ⟨_, h2⟩
    · exact iha prev i caps k r h1
    · exact ihb prev i caps k r h2
  | starC lz f =>
    intro prev i caps k r h
    unfold matchK at h
    split at h
    · exact lazyK_some_suffix f k i prev caps r h
    · exact greedyK_some_suffix f k i prev caps r h
  | group n rr ih =>
    intro prev i caps k r h
    unfold matchK at h
    obtain ⟨p2, i2, caps2, hs2, hk2⟩ := ih prev i caps _ r h
    exact ⟨p2, i2, (n, i.take (i.length - i2.length)) :: caps2, hs2, hk2⟩
  | wordB =>
    intro prev i caps k r h
    unfold matchK at h
    split at h
    · exact ⟨prev, i, caps, List.suffix_refl i, h⟩
    · cases h

/-- Patterns that end, in sequence position, with a fixed literal. -/
inductive EndsWithLits : Re → Str → Prop where
  | base (s : Str) : EndsWithLits (Re.lits s) s
  | seqR (a : Re) {b : Re} {t : Str} : EndsWithLits b t → EndsWithLits (Re.seq a b) t

theorem stripLits_startsWith (ci : Bool) :
    ∀ (s : Str) (prev : Option Char) (i : Str) (pr : Option Char × Str),
      stripLits ci s prev i = some pr → startsWithB ci s i = true := by
  intro s
  induction s with
  | nil => intro prev i pr h; rfl
  | cons p ps ih =>
    intro prev i pr h
    cases i with
    | nil => exact absurd h (by simp [stripLits])
    | cons c cs =>
      unfold stripLits at h
      split at h
      next hc => simp [startsWithB, hc]; exact ih (some c) cs pr h
      next => cases h

theorem contains_of_startsWith (ci : Bool) (t i : Str)
    (h : startsWithB ci t i = true) : (idxOfSub ci t i).isSome = true := by
  cases i <;> simp [idxOfSub, h]

theorem contains_of_suffix (ci : Bool) (t : Str) :
    ∀ (i2 i : Str), i2.IsSuffix i → (idxOfSub ci t i2).isSome = true →
      (idxOfSub ci t i).isSome = true := by
  intro i2 i hs h
  obtain ⟨pre, rfl⟩ := hs
  induction pre with
  | nil => simpa using h
  | cons c cs ih =>
    show (idxOfSub ci t (c :: (cs ++ i2))).isSome = true
    unfold idxOfSub
    split
    · rfl
    · simpa using ih

theorem matchK_endsWith_contains (ci : Bool) :
    ∀ (re : Re) (t : Str), EndsWithLits re t →
    ∀ (prev : Option Char) (i : Str) (caps : Caps) (k : Cont) (r : Str × Caps),
      matchK ci re prev i caps k = some r → (idxOfSub ci t i).isSome = true := by
  intro re t he
  induction he with
  | base s =>
    intro prev i caps k r h
    unfold matchK at h
    cases hs : stripLits ci s prev i with
    | none => rw [hs] at h; cases h
    | some pr =>
      exact contains_of_startsWith ci s i (stripLits_startsWith ci s prev i pr hs)
  | seqR a hb ih =>
    intro prev i caps k r h
    unfold matchK at h
    obtain ⟨p2, i2, caps2, hs2, hk2⟩ := matchK_some_suffix ci a prev i caps _ r h
    exact contains_of_suffix ci _ i2 i hs2 (ih p2 i2 caps2 k r hk2)

theorem searchFrom_endsWith_contains (ci : Bool) (re : Re) (t : Str)
    (he : EndsWithLits re t) :
    ∀ (i : Str) (prev : Option Char) (pos : Nat) (m : Nat × Nat × Caps),
      searchFrom ci re prev pos i = some m → (idxOfSub ci t i).isSome = true := by
  intro i
  induction i with
  | nil =>
    intro prev pos m h
    unfold searchFrom at h
    cases hr : runMatch ci re prev [] with
    | some p => exact matchK_endsWith_contains ci re t he prev [] [] _ p hr
    | none => rw [hr] at h; cases h
  | cons c cs ih =>
    intro prev pos m h
    unfold searchFrom at h
    cases hr : runMatch ci re prev (c :: cs) with
    | some p => exact matchK_endsWith_contains ci re t he prev (c :: cs) [] _ p hr
    | none =>
      rw [hr] at h
      have := ih (some c) (pos + 1) m h
      exact contains_of_suffix ci t cs (c :: cs) (List.suffix_cons c cs) this

theorem matchAll_nil_of_not_contains (ci : Bool) (re : Re) (t text : Str)
    (he : EndsWithLits re t) (h : (idxOfSub ci t text).isSome = false) :
    matchAll ci re text = [] := by
  unfold matchAll matchAllAux
  cases hs : searchFrom ci re none 0 text with
  | none => rfl
  | some m =>
    rw [searchFrom_endsWith_contains ci re t he text none 0 m hs] at h
    cases h

theorem endsWith_nodeRe (name : Str) : EndsWithLits (nodeRe name) (S "</mxCell>") := by
  unfold nodeRe
  simp only [seqL]
  exact .seqR _ (.seqR _ (.seqR _ (.seqR _ (.seqR _ (.seqR _ (.seqR _ (.seqR _
    (.seqR _ (.seqR _ (.base _))))))))))

theorem endsWith_edgeRe : EndsWithLits edgeRe (S "</mxCell>") := by
  unfold edgeRe
  simp only [seqL]
  exact .seqR _ (.seqR _ (.seqR _ (.seqR _ (.seqR _ (.seqR _ (.base _))))))

/-! ### Claim C10 amended: matches must end at an explicit closing tag -/

/-- Claim C10 amended: a self-closing element is never matched as a
standalone element: every Remove or DisconnectEdges deletion match must end
at a literal closing mxCell tag, so on a document that contains no such
closing tag (for example one whose cells are all written self-closing) both
transforms fail and return the document unchanged; however, a self-closing
element can still be deleted as part of a larger match that ends at a later
closing tag elsewhere in the document, as the counterexample shows. -/
theorem c10_self_closing (xml name : Str) (c1 c2 : Option Str)
    (h : containsCI (S "</mxCell>") xml = false) :
    removeComponent xml name = ⟨false, xml⟩ ∧
    (removeConnections xml c1 c2).success = false ∧
    (removeConnections xml c1 c2).xml = xml := by
  have hnode : matchAll true (nodeRe name) xml = [] :=
    matchAll_nil_of_not_contains true (nodeRe name) (S "</mxCell>") xml
      (endsWith_nodeRe name) h
  have hedge : matchAll true edgeRe xml = [] :=
    matchAll_nil_of_not_contains true edgeRe (S "</mxCell>") xml endsWith_edgeRe h
  refine ⟨?_, ?_⟩
  · unfold removeComponent
    rw [hnode]
    rfl
  · cases hc : (truthy c1 && truthy c2) with
    | false =>
      rw [removeConnections_no_match xml c1 c2 hc hedge]
      exact ⟨rfl, rfl⟩
    | true =>
      unfold removeConnections
      rw [if_pos hc, hedge]
      exact ⟨rfl, rfl⟩

/-- A document whose only cell is a self-closing edge element. -/
def scOnly : Str :=
  S "<mxGraphModel><root><mxCell edge=\"1\" source=\"2\" target=\"3\" /></root></mxGraphModel>"

/-- Witness for C10 amended: the all-self-closing document survives both
transforms unchanged. -/
theorem c10_witness :
    removeComponent scOnly (S "GPU") = ⟨false, scOnly⟩ ∧
    (removeConnections scOnly none none).xml = scOnly :=
  ⟨(c10_self_closing scOnly (S "GPU") none none (by decide)).1,
   (c10_self_closing scOnly (S "GPU") none none (by decide)).2.2⟩

/-! ### Case-insensitivity of matching: lowering the searched name first
does not change any transform built on the ignore-case matcher -/

theorem toNat_ofNat_valid (n : Nat) (h1 : 97 ≤ n) (h2 : n ≤ 122) :
    (Char.ofNat n).toNat = n := by
  have hv : n.isValidChar := Or.inl (by omega)
  simp only [Char.ofNat, dif_pos hv, Char.ofNatAux, Char.toNat, UInt32.toNat,
    UInt32.toBitVec, BitVec.toNat_ofNatLt]

theorem lowerChar_idem (c : Char) : lowerChar (lowerChar c) = lowerChar c := by
  unfold lowerChar
  by_cases hb : 65 ≤ c.toNat ∧ c.toNat ≤ 90
  · have hc : (65 ≤ c.toNat && c.toNat ≤ 90) = true := by
      simp only [Bool.and_eq_true, decide_eq_true_eq]
      exact hb
    have ht : (Char.ofNat (c.toNat + 32)).toNat = c.toNat + 32 :=
      toNat_ofNat_valid _ (by omega) (by omega)
    rw [if_pos hc, if_neg]
    simp only [ht, Bool.and_eq_true, decide_eq_true_eq]
    omega
  · have hc : ¬ ((65 ≤ c.toNat && c.toNat ≤ 90) = true) := by
      simp only [Bool.and_eq_true, decide_eq_true_eq]
      exact hb
    rw [if_neg hc, if_neg hc]

theorem charEq_lower_left (a b : Char) :
    charEq true (lowerChar a) b = charEq true a b := by
  unfold charEq
  simp [lowerChar_idem]

theorem stripLits_lower (s : Str) :
    ∀ (prev : Option Char) (i : Str),
      stripLits true (lowerStr s) prev i = stripLits true s prev i := by
  induction s with
  | nil => intro prev i; rfl
  | cons p ps ih =>
    intro prev i
    show stripLits true (lowerChar p :: lowerStr ps) prev i = _
    cases i with
    | nil => rfl
    | cons c cs =>
      show (if charEq true (lowerChar p) c = true then
              stripLits true (lowerStr ps) (some c) cs else none) =
           (if charEq true p c = true then stripLits true ps (some c) cs else none)
      rw [charEq_lower_left, ih]

/-- Lower-case every literal of a pattern. -/
def lowerLits : Re → Re
  | .eps => .eps
  | .lits s => .lits (lowerStr s)
  | .cls f => .cls f
  | .seq a b => .seq (lowerLits a) (lowerLits b)
  | .alt a b => .alt (lowerLits a) (lowerLits b)
  | .starC lz f => .starC lz f
  | .group n r => .group n (lowerLits r)
  | .wordB => .wordB

theorem matchK_lowerLits :
    ∀ (re : Re) (prev : Option Char) (i : Str) (caps : Caps) (k : Cont),
      matchK true (lowerLits re) prev i caps k = matchK true re prev i caps k := by
  intro re
  induction re with
  | eps => intro prev i caps k; rfl
  | lits s =>
    intro prev i caps k
    show (match stripLits true (lowerStr s) prev i with
          | some (p2, rest) => k p2 rest caps
          | none => none) = _
    rw [stripLits_lower]
    rfl
  | cls f => intro prev i caps k; rfl
  | seq a b iha ihb =>
    intro prev i caps k
    show matchK true (lowerLits a) prev i caps
        (fun p2 i2 c2 => matchK true (lowerLits b) p2 i2 c2 k) = _
    simp only [ihb]
    exact iha prev i caps _
  | alt a b iha ihb =>
    intro prev i caps k
    show (matchK true (lowerLits a) prev i caps k <|> matchK true (lowerLits b) prev i caps k) = _
    rw [iha, ihb]
    rfl
  | starC lz f => intro prev i caps k; rfl
  | group n rr ih =>
    intro prev i caps k
    show matchK true (lowerLits rr) prev i caps _ = _
    exact ih prev i caps _
  | wordB => intro prev i caps k; rfl

theorem runMatch_lowerLits (re : Re) (prev : Option Char) (i : Str) :
    runMatch true (lowerLits re) prev i = runMatch true re prev i := by
  unfold runMatch
  exact matchK_lowerLits re prev i [] _

theorem searchFrom_lowerLits (re : Re) :
    ∀ (i : Str) (prev : Option Char) (pos : Nat),
      searchFrom true (lowerLits re) prev pos i = searchFrom true re prev pos i := by
  intro i
  induction i with
  | nil => intro prev pos; unfold searchFrom; rw [runMatch_lowerLits]
  | cons c cs ih =>
    intro prev pos
    unfold searchFrom
    rw [runMatch_lowerLits, ih]

theorem matchAllAux_lowerLits (re : Re) :
    ∀ (fuel : Nat) (prev : Option Char) (pos : Nat) (i : Str),
      matchAllAux true (lowerLits re) fuel prev pos i = matchAllAux true re fuel prev pos i := by
  intro fuel
  induction fuel with
  | zero => intro prev pos i; rfl
  | succ n ih =>
    intro prev pos i
    unfold matchAllAux
    rw [searchFrom_lowerLits]
    cases searchFrom true re prev pos i with
    | none => rfl
    | some m => simp only [ih]

theorem matchAll_lowerLits (re : Re) (text : Str) :
    matchAll true (lowerLits re) text = matchAll true re text := by
  unfold matchAll
  exact matchAllAux_lowerLits re (text.length + 1) none 0 text

theorem lowerStr_idem (s : Str) : lowerStr (lowerStr s) = lowerStr s := by
  unfold lowerStr
  rw [List.map_map]
  exact List.map_congr_left (fun c _ => lowerChar_idem c)

theorem lowerLits_nodeRe (name : Str) :
    lowerLits (nodeRe name) = lowerLits (nodeRe (lowerStr name)) := by
  simp [nodeRe, seqL, lowerLits, lowerStr_idem]

theorem lowerLits_idValRe (name : Str) :
    lowerLits (idValRe name) = lowerLits (idValRe (lowerStr name)) := by
  simp [idValRe, seqL, lowerLits, lowerStr_idem]

theorem matchAll_nodeRe_lower (xml name : Str) :
    matchAll true (nodeRe (lowerStr name)) xml = matchAll true (nodeRe name) xml := by
  rw [← matchAll_lowerLits (nodeRe (lowerStr name)), ← lowerLits_nodeRe,
    matchAll_lowerLits]

theorem searchTop_idValRe_lower (xml name : Str) :
    searchTop true (idValRe (lowerStr name)) xml = searchTop true (idValRe name) xml := by
  unfold searchTop
  rw [← searchFrom_lowerLits (idValRe (lowerStr name)), ← lowerLits_idValRe,
    searchFrom_lowerLits]

/-! ### Claim C2 amended: Remove matches labels case-insensitively -/

/-- Claim C2 amended: the Remove transform matches labels case-insensitively
(its node, identifier and connection patterns carry the ignore-case flag),
so Remove of a name behaves identically to Remove of the lower-cased name
and a node whose label contains the name only under a case-insensitive
comparison is deleted too; on the canonical document `tinyDoc` both the GPU
and the gpu node are deleted together with the edge referencing the first
matched node's identifier, leaving zero node elements whose label contains
the name and zero edge elements referencing the removed identifier. -/
theorem c2_remove_case_insensitive :
    (∀ xml name, removeComponent xml name = removeComponent xml (lowerStr name)) ∧
    removeComponent tinyDoc (S "GPU")
      = ⟨true, S "<mxGraphModel><root></root></mxGraphModel>"⟩ ∧
    containsCI (S "GPU") (removeComponent tinyDoc (S "GPU")).xml = false ∧
    containsSub (S "source=\"2\"") tinyDoc = true ∧
    containsSub (S "source=\"2\"") (removeComponent tinyDoc (S "GPU")).xml = false := by
  refine ⟨?_, by decide, by decide, by decide, by decide⟩
  intro xml name
  unfold removeComponent
  rw [matchAll_nodeRe_lower, searchTop_idValRe_lower]

/-! ### Claim C10 counterexample: a self-closing edge can be deleted -/

/-- Claim C10 is false on the code: on `scDoc` the self-closing edge element
does not survive the global arrow wipe; the single match starts at the
self-closing element and runs to the closing tag of the later open-close
edge, so the whole document, self-closing edge included, is deleted. -/
theorem c10_counterexample :
    containsSub (S "<mxCell edge=\"1\" source=\"2\" target=\"3\" />") scDoc = true ∧
    (removeConnections scDoc none none).success = true ∧
    (removeConnections scDoc none none).xml = [] := by
  decide

/-! ### Whole-word machinery: the global whole-word match list equals the
list of whole-word occurrence positions -/

/-- The last character of `consumed`, falling back to `prev` when nothing
was consumed. -/
def olast (consumed : Str) (prev : Option Char) : Option Char :=
  match consumed.getLast? with
  | some c => some c
  | none => prev

/-- The whole-word condition at the start of a suffix, exactly as the
matcher tests it. -/
def wwAtSuffix (frm : Str) (prev : Option Char) (i : Str) : Bool :=
  atWordBoundary prev i && startsWithB true frm i &&
  atWordBoundary (olast (i.take frm.length) prev) (i.drop frm.length)

/-- Whole-word occurrence positions from `k` on. -/
def wwFrom (frm text : Str) (k : Nat) : List Nat :=
  allWWFromAux frm text (text.length + 1 - k) k

theorem wwList_eq_wwFrom (frm text : Str) : wwList frm text = wwFrom frm text 0 := rfl

theorem getLast?_some_mem {l : Str} {c : Char} (h : l.getLast? = some c) : c ∈ l := by
  induction l with
  | nil => cases h
  | cons a t ih =>
    cases t with
    | nil => simp at h; simp [h]
    | cons b t2 =>
      rw [List.getLast?_cons_cons] at h
      exact List.mem_cons_of_mem a (ih h)

theorem olast_cons (c : Char) (l : Str) (prev : Option Char) :
    olast (c :: l) prev = olast l (some c) := by
  cases l with
  | nil => rfl
  | cons d ds =>
    unfold olast
    rw [List.getLast?_cons_cons]
    cases he : (d :: ds).getLast? with
    | none => simp at he
    | some x => rfl

theorem olast_of_ne_nil {x : Str} (p : Option Char) (h : x ≠ []) :
    olast x p = x.getLast? := by
  unfold olast
  cases he : x.getLast? with
  | none => exact absurd (List.getLast?_eq_none_iff.mp he) h
  | some c => rfl

theorem stripLits_eq (ci : Bool) :
    ∀ (s : Str) (prev : Option Char) (i : Str),
      stripLits ci s prev i =
        if startsWithB ci s i = true then
          some (olast (i.take s.length) prev, i.drop s.length)
        else none := by
  intro s
  induction s with
  | nil => intro prev i; simp [stripLits, startsWithB, olast]
  | cons p ps ih =>
    intro prev i
    cases i with
    | nil => simp [stripLits, startsWithB]
    | cons c cs =>
      show (if charEq ci p c = true then stripLits ci ps (some c) cs else none) = _
      cases hc : charEq ci p c with
      | false => simp [startsWithB, hc]
      | true =>
        rw [if_pos rfl, ih]
        have hsw : startsWithB ci (p :: ps) (c :: cs) = startsWithB ci ps cs := by
          simp [startsWithB, hc]
        rw [hsw]
        have htk : (c :: cs).take (p :: ps).length = c :: cs.take ps.length := rfl
        have hol : olast ((c :: cs).take (p :: ps).length) prev
            = olast (cs.take ps.length) (some c) := by
          rw [htk, olast_cons]
        rw [hol]
        rfl

theorem startsWithB_length_le (ci : Bool) :
    ∀ (s i : Str), startsWithB ci s i = true → s.length ≤ i.length := by
  intro s
  induction s with
  | nil => intro i h; simp
  | cons p ps ih =>
    intro i h
    cases i with
    | nil => cases h
    | cons c cs =>
      simp only [startsWithB, Bool.and_eq_true] at h
      have := ih cs h.2
      simp [List.length_cons]
      omega

theorem startsWithB_decomp (ci : Bool) :
    ∀ (s i : Str), startsWithB ci s i = true →
      ∃ mid rest, i = mid ++ rest ∧ mid.length = s.length ∧
        List.Forall₂ (fun a b => charEq ci a b = true) s mid := by
  intro s
  induction s with
  | nil => intro i h; exact ⟨[], i, rfl, rfl, List.Forall₂.nil⟩
  | cons p ps ih =>
    intro i h
    cases i with
    | nil => cases h
    | cons c cs =>
      simp only [startsWithB, Bool.and_eq_true] at h
      obtain ⟨mid, rest, heq, hlen, hfa⟩ := ih cs h.2
      exact ⟨c :: mid, rest, by rw [heq]; rfl, by simp [hlen], List.Forall₂.cons h.1 hfa⟩

theorem isWordChar_lower (c : Char) : isWordChar (lowerChar c) = isWordChar c := by
  by_cases hb : 65 ≤ c.toNat ∧ c.toNat ≤ 90
  · have hc : (65 ≤ c.toNat && c.toNat ≤ 90) = true := by
      simp only [Bool.and_eq_true, decide_eq_true_eq]
      exact hb
    have ht : (Char.ofNat (c.toNat + 32)).toNat = c.toNat + 32 :=
      toNat_ofNat_valid _ (by omega) (by omega)
    have h1 : isWordChar (lowerChar c) = true := by
      unfold isWordChar lowerChar
      rw [if_pos hc]
      simp only [ht, Bool.or_eq_true, Bool.and_eq_true, decide_eq_true_eq, beq_iff_eq]
      omega
    have h2 : isWordChar c = true := by
      unfold isWordChar
      simp only [Bool.or_eq_true, Bool.and_eq_true, decide_eq_true_eq, beq_iff_eq]
      omega
    rw [h1, h2]
  · have hc : ¬ ((65 ≤ c.toNat && c.toNat ≤ 90) = true) := by
      simp only [Bool.and_eq_true, decide_eq_true_eq]
      exact hb
    unfold lowerChar
    rw [if_neg hc]

theorem isWordChar_eq_of_charEq (a b : Char) (h : charEq true a b = true) :
    isWordChar a = isWordChar b := by
  unfold charEq at h
  rw [if_pos rfl] at h
  have hl : lowerChar a = lowerChar b := by simpa [beq_iff_eq] using h
  rw [← isWordChar_lower a, hl, isWordChar_lower b]

theorem olast_take_drop (text : Str) (k n : Nat) :
    olast ((text.drop k).take n) (text.take k).getLast? = (text.take (k + n)).getLast? := by
  by_cases hn : (text.drop k).take n = []
  · rw [hn]
    rcases List.take_eq_nil_iff.mp hn with h0 | hd
    · subst h0
      rfl
    · have hk : text.length ≤ k := by
        have := List.length_drop k text
        rw [hd] at this
        simp at this
        omega
      rw [List.take_of_length_le hk, List.take_of_length_le (by omega)]
      rfl
  · rw [olast_of_ne_nil _ hn, List.take_add, List.getLast?_append]
    cases he : ((text.drop k).take n).getLast? with
    | none => exact absurd (List.getLast?_eq_none_iff.mp he) hn
    | some x => rfl

theorem getLast?_take_succ (text : Str) (k : Nat) (c : Char) (cs : Str)
    (h : text.drop k = c :: cs) : (text.take (k + 1)).getLast? = some c := by
  rw [List.take_add, h]
  exact List.getLast?_concat _

theorem drop_succ_of_drop_cons (text : Str) (k : Nat) (c : Char) (cs : Str)
    (h : text.drop k = c :: cs) : text.drop (k + 1) = cs := by
  rw [← List.drop_drop 1 k, h]
  rfl

theorem wwAt_eq_suffix (frm text : Str) (k : Nat) :
    wwAt frm text k = wwAtSuffix frm (text.take k).getLast? (text.drop k) := by
  unfold wwAt wwAtSuffix
  rw [olast_take_drop, List.drop_drop]

theorem runMatch_wordRe (frm : Str) (prev : Option Char) (i : Str) :
    runMatch true (wordRe frm) prev i =
      if wwAtSuffix frm prev i = true then some (i.drop frm.length, ([] : Caps))
      else none := by
  have hstep : runMatch true (wordRe frm) prev i =
      (if atWordBoundary prev i = true then
        (match stripLits true frm prev i with
         | some (p2, rest) =>
           (if atWordBoundary p2 rest = true then some (rest, ([] : Caps)) else none)
         | none => none)
       else none) := rfl
  rw [hstep, stripLits_eq]
  unfold wwAtSuffix
  by_cases h1 : atWordBoundary prev i = true
  · by_cases h2 : startsWithB true frm i = true
    · by_cases h3 : atWordBoundary (olast (i.take frm.length) prev) (i.drop frm.length) = true
      · simp [h1, h2, h3]
      · simp [h1, h2, h3]
    · simp [h1, h2]
  · simp [h1]

theorem wwFrom_of_gt (frm text : Str) (k : Nat) (hk : text.length < k) :
    wwFrom frm text k = [] := by
  unfold wwFrom
  rw [show text.length + 1 - k = 0 from by omega]
  rfl

theorem wwFrom_step (frm text : Str) (k : Nat) (hk : k ≤ text.length) :
    wwFrom frm text k =
      if wwAt frm text k then k :: wwFrom frm text (k + 1)
      else wwFrom frm text (k + 1) := by
  unfold wwFrom
  rw [show text.length + 1 - k = (text.length + 1 - (k + 1)) + 1 from by omega]
  rfl

theorem wwAt_false_of_drop_nil (frm text : Str) (k : Nat) (hne : frm ≠ [])
    (h : text.drop k = []) : wwAt frm text k = false := by
  unfold wwAt
  rw [h]
  cases frm with
  | nil => exact absurd rfl hne
  | cons p ps => simp [startsWithB]

theorem wwFrom_nil_of_drop_nil (frm text : Str) (k : Nat) (hne : frm ≠ [])
    (h : text.drop k = []) : wwFrom frm text k = [] := by
  have hk : text.length ≤ k := by
    have := List.length_drop k text
    rw [h] at this
    simp at this
    omega
  rcases Nat.eq_or_lt_of_le hk with he | hl
  · rw [wwFrom_step frm text k (by omega)]
    rw [wwAt_false_of_drop_nil frm text k hne h]
    simp only [Bool.false_eq_true, if_false]
    exact wwFrom_of_gt frm text (k + 1) (by omega)
  · exact wwFrom_of_gt frm text k hl

theorem wwFrom_head (frm text : Str) :
    ∀ (n k : Nat), n = text.length + 1 - k → ∀ p, (wwFrom frm text k).head? = some p →
      k ≤ p ∧ p ≤ text.length ∧ wwAt frm text p = true ∧
        wwFrom frm text k = p :: wwFrom frm text (p + 1) := by
  intro n
  induction n with
  | zero =>
    intro k hn p hp
    rw [wwFrom_of_gt frm text k (by omega)] at hp
    cases hp
  | succ m ih =>
    intro k hn p hp
    have hk : k ≤ text.length := by omega
    rw [wwFrom_step frm text k hk] at hp
    cases hww : wwAt frm text k with
    | true =>
      rw [hww] at hp
      simp only [if_true] at hp
      have hpk : p = k := by simpa using hp.symm
      subst hpk
      refine ⟨Nat.le_refl p, hk, hww, ?_⟩
      rw [wwFrom_step frm text p hk, hww]
      simp
    | false =>
      rw [hww] at hp
      simp only [Bool.false_eq_true, if_false] at hp
      obtain ⟨h1, h2, h3, h4⟩ := ih (k + 1) (by omega) p hp
      refine ⟨by omega, h2, h3, ?_⟩
      rw [wwFrom_step frm text k hk, hww]
      simp only [Bool.false_eq_true, if_false]
      exact h4

theorem forall₂_mem_right {R : Char → Char → Prop} :
    ∀ {s m : Str}, List.Forall₂ R s m → ∀ c ∈ m, ∃ a ∈ s, R a c := by
  intro s m h
  induction h with
  | nil => intro c hc; cases hc
  | cons hr _ ih =>
    intro c hc
    rcases List.mem_cons.mp hc with he | hm
    · subst he; exact ⟨_, List.mem_cons_self _ _, hr⟩
    · obtain ⟨a, ha, har⟩ := ih c hm
      exact ⟨a, List.mem_cons_of_mem _ ha, har⟩

theorem wwAt_startsWith (frm text : Str) (k : Nat) (h : wwAt frm text k = true) :
    startsWithB true frm (text.drop k) = true := by
  unfold wwAt at h
  simp only [Bool.and_eq_true] at h
  exact h.1.2

theorem wwAt_false_interior (frm text : Str)
    (hw : ∀ c ∈ frm, isWordChar c = true) (k j : Nat)
    (hk : wwAt frm text k = true) (hj1 : 1 ≤ j) (hj2 : j < frm.length) :
    wwAt frm text (k + j) = false := by
  have hsw := wwAt_startsWith frm text k hk
  obtain ⟨mid, rest, heq, hlen, hfa⟩ := startsWithB_decomp true frm (text.drop k) hsw
  have hmidw : ∀ c ∈ mid, isWordChar c = true := by
    intro c hc
    obtain ⟨a, ha, hac⟩ := forall₂_mem_right hfa c hc
    rw [← isWordChar_eq_of_charEq a c hac]
    exact hw a ha
  have e1 : (text.take (k + j)).getLast? = (mid.take j).getLast? := by
    rw [← olast_take_drop text k j, heq,
      List.take_append_of_le_length (by omega), olast_of_ne_nil]
    apply List.ne_nil_of_length_pos
    rw [List.length_take]
    omega
  have e2 : text.drop (k + j) = mid.drop j ++ rest := by
    rw [← List.drop_drop j k, heq, List.drop_append_of_le_length (by omega)]
  obtain ⟨c1, hc1⟩ : ∃ c1, (mid.take j).getLast? = some c1 := by
    cases hx : (mid.take j).getLast? with
    | none =>
      have h0 := List.getLast?_eq_none_iff.mp hx
      have : (mid.take j).length = 0 := by rw [h0]; rfl
      rw [List.length_take] at this
      omega
    | some c1 => exact ⟨c1, rfl⟩
  have hc1w : isWordChar c1 = true :=
    hmidw c1 (List.take_subset j mid (getLast?_some_mem hc1))
  obtain ⟨c2, t2, hc2⟩ : ∃ c2 t2, mid.drop j = c2 :: t2 := by
    cases hx : mid.drop j with
    | nil =>
      have : (mid.drop j).length = 0 := by rw [hx]; rfl
      rw [List.length_drop] at this
      omega
    | cons c2 t2 => exact ⟨c2, t2, rfl⟩
  have hc2w : isWordChar c2 = true := by
    refine hmidw c2 (List.drop_subset j mid ?_)
    rw [hc2]
    exact List.mem_cons_self _ _
  have hb : atWordBoundary (text.take (k + j)).getLast? (text.drop (k + j)) = false := by
    rw [e1, hc1, e2, hc2]
    show atWordBoundary (some c1) (c2 :: (t2 ++ rest)) = false
    simp [atWordBoundary, hc1w, hc2w]
  unfold wwAt
  rw [hb]
  rfl

theorem wwFrom_skip_aux (frm text : Str)
    (hw : ∀ c ∈ frm, isWordChar c = true) (p : Nat)
    (hp : wwAt frm text p = true) :
    ∀ d, d ≤ frm.length - 1 →
      wwFrom frm text (p + frm.length - d) = wwFrom frm text (p + frm.length) := by
  intro d
  induction d with
  | zero => intro _; rfl
  | succ m ih =>
    intro hd
    have hflen : m + 2 ≤ frm.length := by omega
    have hj1 : 1 ≤ frm.length - (m + 1) := by omega
    have hj2 : frm.length - (m + 1) < frm.length := by omega
    by_cases hk0 : p + frm.length - (m + 1) ≤ text.length
    · rw [wwFrom_step frm text _ hk0]
      have hfalse : wwAt frm text (p + frm.length - (m + 1)) = false := by
        rw [show p + frm.length - (m + 1) = p + (frm.length - (m + 1)) from by omega]
        exact wwAt_false_interior frm text hw p (frm.length - (m + 1)) hp hj1 hj2
      rw [hfalse]
      simp only [Bool.false_eq_true, if_false]
      rw [show p + frm.length - (m + 1) + 1 = p + frm.length - m from by omega]
      exact ih (by omega)
    · rw [wwFrom_of_gt frm text _ (by omega), wwFrom_of_gt frm text _ (by omega)]

theorem wwFrom_skip (frm text : Str) (hne : frm ≠ [])
    (hw : ∀ c ∈ frm, isWordChar c = true) (p : Nat)
    (hp : wwAt frm text p = true) :
    wwFrom frm text (p + 1) = wwFrom frm text (p + frm.length) := by
  have hlen : 1 ≤ frm.length := by
    cases frm with
    | nil => exact absurd rfl hne
    | cons a l => simp
  have := wwFrom_skip_aux frm text hw p hp (frm.length - 1) (Nat.le_refl _)
  rw [show p + frm.length - (frm.length - 1) = p + 1 from by omega] at this
  exact this

theorem searchFrom_wordRe (frm text : Str) (hne : frm ≠ []) :
    ∀ (i : Str), ∀ (k : Nat), i = text.drop k →
      searchFrom true (wordRe frm) (text.take k).getLast? k i
        = ((wwFrom frm text k).head?).map (fun p => (p, frm.length, ([] : Caps))) := by
  intro i
  induction i with
  | nil =>
    intro k hk
    show (match runMatch true (wordRe frm) (text.take k).getLast? [] with
          | some (rest, caps) => some (k, ([] : Str).length - rest.length, caps)
          | none => none) = _
    rw [runMatch_wordRe]
    have hsw : startsWithB true frm ([] : Str) = false := by
      cases frm with
      | nil => exact absurd rfl hne
      | cons p ps => rfl
    have hfalse : wwAtSuffix frm ((text.take k).getLast?) [] = false := by
      unfold wwAtSuffix
      rw [hsw]
      simp
    rw [if_neg (by simp [hfalse])]
    rw [wwFrom_nil_of_drop_nil frm text k hne hk.symm]
    rfl
  | cons c cs ih =>
    intro k hk
    show (match runMatch true (wordRe frm) (text.take k).getLast? (c :: cs) with
          | some (rest, caps) => some (k, (c :: cs).length - rest.length, caps)
          | none => searchFrom true (wordRe frm) (some c) (k + 1) cs) = _
    rw [runMatch_wordRe]
    have hklt : k < text.length := by
      have h1 := List.length_drop k text
      rw [← hk] at h1
      simp only [List.length_cons] at h1
      omega
    have hww : wwAt frm text k = wwAtSuffix frm ((text.take k).getLast?) (c :: cs) := by
      rw [wwAt_eq_suffix, ← hk]
    by_cases hcase : wwAtSuffix frm ((text.take k).getLast?) (c :: cs) = true
    · rw [if_pos hcase]
      have hsw : startsWithB true frm (c :: cs) = true := by
        unfold wwAtSuffix at hcase
        simp only [Bool.and_eq_true] at hcase
        exact hcase.1.2
      have hle := startsWithB_length_le true frm (c :: cs) hsw
      have hlen2 : (c :: cs).length - ((c :: cs).drop frm.length).length = frm.length := by
        rw [List.length_drop]
        omega
      have hwk : wwAt frm text k = true := hww.trans hcase
      rw [wwFrom_step frm text k (by omega), hwk]
      simp only [List.length_cons, List.length_drop] at hlen2 hle ⊢
      simp
      omega
    · rw [if_neg hcase]
      have e1 : (text.take (k + 1)).getLast? = some c := getLast?_take_succ text k c cs hk.symm
      have e2 : cs = text.drop (k + 1) := (drop_succ_of_drop_cons text k c cs hk.symm).symm
      rw [← e1, ih (k + 1) e2]
      have hwk : wwAt frm text k = false := by
        rw [hww]
        simpa using hcase
      rw [wwFrom_step frm text k (by omega), hwk]
      simp

theorem matchAllAux_wordRe (frm text : Str) (hne : frm ≠ [])
    (hw : ∀ c ∈ frm, isWordChar c = true) :
    ∀ (fuel k : Nat), text.length + 1 ≤ fuel + k →
      matchAllAux true (wordRe frm) fuel ((text.take k).getLast?) k (text.drop k)
        = (wwFrom frm text k).map (fun p => (p, frm.length, ([] : Caps))) := by
  intro fuel
  induction fuel with
  | zero =>
    intro k hfk
    rw [wwFrom_of_gt frm text k (by omega)]
    rfl
  | succ m ih =>
    intro k hfk
    unfold matchAllAux
    rw [searchFrom_wordRe frm text hne (text.drop k) k rfl]
    cases hh : (wwFrom frm text k).head? with
    | none =>
      rw [List.head?_eq_none_iff.mp hh]
      rfl
    | some p =>
      obtain ⟨hkp, hple, hwp, hcons⟩ := wwFrom_head frm text (text.length + 1 - k) k rfl p hh
      have hflen : 1 ≤ frm.length := by
        cases frm with
        | nil => exact absurd rfl hne
        | cons a l => simp
      simp only [Option.map_some']
      have hmax : max frm.length 1 = frm.length := by omega
      have hadv : k + (p - k + max frm.length 1) = p + frm.length := by omega
      have hprev : (match ((text.drop k).take (p - k + max frm.length 1)).getLast? with
          | some c => some c
          | none => (text.take k).getLast?)
          = (text.take (p + frm.length)).getLast? := by
        show olast ((text.drop k).take (p - k + max frm.length 1)) ((text.take k).getLast?) = _
        rw [olast_take_drop, hadv]
      rw [hprev]
      have hdrop : (text.drop k).drop (p - k + max frm.length 1)
          = text.drop (p + frm.length) := by
        rw [List.drop_drop, hadv]
      rw [hdrop]
      rw [show k + (p - k + max frm.length 1) = p + frm.length from hadv]
      rw [ih (p + frm.length) (by omega)]
      rw [hcons]
      rw [wwFrom_skip frm text hne hw p hwp]
      rfl

theorem matchAll_wordRe (frm text : Str) (hne : frm ≠ [])
    (hw : ∀ c ∈ frm, isWordChar c = true) :
    matchAll true (wordRe frm) text
      = (wwList frm text).map (fun p => (p, frm.length, ([] : Caps))) := by
  rw [wwList_eq_wwFrom]
  exact matchAllAux_wordRe frm text hne hw (text.length + 1) 0 (by omega)

/-! ### Claim C3 amended: whole-word replacement -/

/-- Claim C3 amended: for a nonempty all-word-character source word,
Replace reports a change count equal to the number of case-insensitive
whole-word occurrence positions of the word in the document, replaces
exactly those occurrences with the upper-cased target (splicing the
replacement over each occurrence), and fails leaving the document unchanged
when there is no occurrence; the resulting document is free of remaining
occurrences whenever the replacement text does not itself reintroduce the
word (as the counterexample Replace GPU GPU shows it can), demonstrated on
the canonical document. -/
theorem c3_replace_whole_word (xml frm toC : Str) (hne : frm ≠ [])
    (hw : ∀ c ∈ frm, isWordChar c = true) :
    (wwList frm xml = [] → replaceComponent xml frm toC = ⟨false, xml, 0⟩) ∧
    (wwList frm xml ≠ [] →
      (replaceComponent xml frm toC).success = true ∧
      (replaceComponent xml frm toC).count = (wwList frm xml).length ∧
      (replaceComponent xml frm toC).xml =
        spliceAux (fun _ => upperStr toC) 0 xml
          ((wwList frm xml).map (fun p => (p, frm.length, ([] : Caps))))) ∧
    replaceComponent (S "a gpu and GPUx") (S "gpu") (S "cpu")
      = ⟨true, S "a CPU and GPUx", 1⟩ ∧
    wwList (S "gpu") (S "a CPU and GPUx") = [] := by
  have hmm := matchAll_wordRe frm xml hne hw
  refine ⟨?_, ?_, by decide, by decide⟩
  · intro h0
    unfold replaceComponent
    rw [hmm, h0]
    rfl
  · intro h0
    have hne2 : matchAll true (wordRe frm) xml ≠ [] := by
      rw [hmm]
      simpa using h0
    unfold replaceComponent
    rw [hmm]
    rw [if_neg (by simpa using h0)]
    refine ⟨rfl, by simp, ?_⟩
    show replaceAllRe true (wordRe frm) xml (fun _ => upperStr toC) = _
    unfold replaceAllRe
    rw [hmm]

/-- Witness for C3 amended at the canonical document. -/
theorem c3_witness :
    (replaceComponent (S "a gpu and GPUx") (S "gpu") (S "cpu")).count
      = (wwList (S "gpu") (S "a gpu and GPUx")).length :=
  ((c3_replace_whole_word (S "a gpu and GPUx") (S "gpu") (S "cpu")
    (by decide) (by decide)).2.1 (by decide)).2.1

end BlueprintEdit
